import Mathlib

/-! FixedMemoryPool: the free-offset stack of `MemoryPool<T>`.

A shallow embedding of `include/MemoryPool.h` and `include/MemoryPool.hpp`.

* Addresses (`char*`, `T*`) are natural numbers below `2 ^ 64`; `nullptr` is `0`.
* `size_t` values are natural numbers, every arithmetic step is reduced modulo `2 ^ 64`.
* The raw buffer `memoryPool` is represented by its base address only: the pool never reads
  or writes the element bytes.
* The array `freeOffsets` is a `List Nat` of length `poolSize`. A read outside the array
  yields `0` and a write outside the array leaves the array as it is (in C++ both touch
  memory that is not part of the array).
* `objectSize` (`sizeof(T)`) is a field of the state, fixed at construction.
* A thrown `std::invalid_argument` is `Except.error Exn.invalid_argument`; the messages
  printed on `std::cerr` are not modelled.
-/

set_option autoImplicit false

namespace FixedMemoryPool

/-! ## Data model -/

/-- The modulus of `size_t` and of pointer arithmetic on the 64-bit target. -/
def sizeMod : Nat := 2 ^ 64

/-- The exceptions thrown by the pool. -/
inductive Exn where
  | invalid_argument
  deriving DecidableEq, Repr

/-- The data members of `MemoryPool<T>` together with `objectSize = sizeof(T)`. -/
structure MemoryPool where
  /-- The constant `sizeof(T)`. -/
  objectSize : Nat
  /-- Base address of the raw buffer of `poolSize * objectSize` bytes. -/
  memoryPool : Nat
  /-- The array of free offsets. -/
  freeOffsets : List Nat
  /-- Total number of objects in the pool. -/
  poolSize : Nat
  /-- Number of available slots. -/
  availableSlots : Nat
  /-- Index of the next free slot in `freeOffsets`. -/
  nextFreeIndex : Nat
  deriving DecidableEq, Repr

deriving instance DecidableEq for Except

namespace MemoryPool

/-! ## Construction -/

/-- The loop `for (size_t i = 0; i < poolSize; ++i) freeOffsets[i] = i;` of the constructor:
`remaining` iterations are left and the loop variable is `i`. -/
def initLoop : (remaining : Nat) → (i : Nat) → List Nat → List Nat
  | 0, _, a => a
  | k + 1, i, a => initLoop k (i + 1) (a.set i i)

/-- The constructor `MemoryPool<T>::MemoryPool(size_t poolSize)` for the case that both
`std::malloc` calls return blocks of the size asked for: the address returned by
`std::malloc(poolSize * objectSize)` is the argument `base`, and the freshly allocated offset
array of `poolSize` entries is taken to be zero-filled before the initialisation loop
overwrites every entry. The outcome for every behaviour of `std::malloc` is
`constructWith`. -/
def construct (objectSize base poolSize : Nat) : Except Exn MemoryPool :=
  if poolSize = 0 then
    .error .invalid_argument
  else
    .ok { objectSize := objectSize
          memoryPool := base
          freeOffsets := initLoop poolSize 0 (List.replicate poolSize 0)
          poolSize := poolSize
          availableSlots := poolSize
          nextFreeIndex := 0 }

/-- What a run of the constructor ends in: the exception thrown, a write outside the block
that `std::malloc` returned for the offset array (undefined behaviour), or the pool. -/
inductive ConstructOutcome where
  | threw (e : Exn)
  | undefined
  | built (s : MemoryPool)
  deriving DecidableEq, Repr

/-- The initialisation loop of the constructor on an offset array with room for `words`
entries: the write `freeOffsets[i] = i` with `i >= words` lies outside the array, and the
loop has no result then. -/
def initLoopChecked (words : Nat) : (remaining : Nat) → (i : Nat) → List Nat → Option (List Nat)
  | 0, _, a => some a
  | k + 1, i, a =>
    if i < words then initLoopChecked words k (i + 1) (a.set i i) else none

/-- The constructor `MemoryPool<T>::MemoryPool(size_t poolSize)` for every behaviour of the
two `std::malloc` calls: `mallocPool size` and `mallocOffsets size` are the addresses the
first and the second call return for a request of `size` bytes (`0` is a null pointer).
Both requests, `poolSize * objectSize` and `poolSize * sizeof(size_t)` with
`sizeof(size_t) = 8`, are formed in `size_t`. The block returned for the offset array has
room for `size / 8` entries, a null pointer for none. -/
def constructWith (mallocPool mallocOffsets : Nat → Nat) (objectSize poolSize : Nat) :
    ConstructOutcome :=
  if poolSize = 0 then
    .threw .invalid_argument
  else
    let memoryPool := mallocPool ((poolSize * objectSize) % sizeMod)
    let offsetBytes := (poolSize * 8) % sizeMod
    let freeOffsets := mallocOffsets offsetBytes
    let words := if freeOffsets = 0 then 0 else offsetBytes / 8
    match initLoopChecked words poolSize 0 (List.replicate words 0) with
    | none => .undefined
    | some a =>
      .built { objectSize := objectSize
               memoryPool := memoryPool
               freeOffsets := a
               poolSize := poolSize
               availableSlots := poolSize
               nextFreeIndex := 0 }

/-! ## Queries -/

/-- The accessor `getPoolSize()`. -/
def getPoolSize (s : MemoryPool) : Nat := s.poolSize

/-- The accessor `getAvailableSlots()`. -/
def getAvailableSlots (s : MemoryPool) : Nat := s.availableSlots

/-- The query `isFull()`: `availableSlots == 0`. -/
def isFull (s : MemoryPool) : Bool := s.availableSlots == 0

/-- The query `isEmpty()`: `availableSlots == poolSize`. -/
def isEmpty (s : MemoryPool) : Bool := s.availableSlots == s.poolSize

/-! ## Allocation and deallocation -/

/-- The method `allocate()`: the returned pointer (`0` is `nullptr`) and the state after the
call. -/
def allocate (s : MemoryPool) : Nat × MemoryPool :=
  if s.availableSlots = 0 then
    (0, s)
  else
    let offset := s.freeOffsets.getD s.nextFreeIndex 0
    let s' := { s with
      nextFreeIndex := (s.nextFreeIndex + 1) % sizeMod
      availableSlots := (s.availableSlots + sizeMod - 1) % sizeMod }
    ((s.memoryPool + offset) % sizeMod, s')

/-- The expression `(static_cast<char*>(static_cast<void*>(ptr)) - memoryPool) / objectSize`
of `deallocate`: the signed pointer difference is converted to `size_t` (reduced modulo
`2 ^ 64`) by the usual arithmetic conversions and then divided by `objectSize`. -/
def ptrOffset (s : MemoryPool) (ptr : Nat) : Nat :=
  Int.toNat (((ptr : Int) - (s.memoryPool : Int)) % (sizeMod : Int)) / s.objectSize

/-- The method `deallocate(T* ptr)`: the state after the call, or the exception thrown. -/
def deallocate (s : MemoryPool) (ptr : Nat) : Except Exn MemoryPool :=
  if ptr = 0 then
    .ok s
  else
    let offset := ptrOffset s ptr
    if offset ≥ s.poolSize then
      .error .invalid_argument
    else
      let next := (s.nextFreeIndex + sizeMod - 1) % sizeMod
      .ok { s with
        nextFreeIndex := next
        availableSlots := (s.availableSlots + 1) % sizeMod
        freeOffsets := s.freeOffsets.set next offset }

/-- The method `deallocate(T* ptr)` statement by statement, keeping the data members as they
are at the moment the call returns or throws: the members after the call and the exception
thrown, if any. -/
def deallocateState (s : MemoryPool) (ptr : Nat) : MemoryPool × Option Exn :=
  if ptr = 0 then
    (s, none)
  else
    let offset := ptrOffset s ptr
    if offset ≥ s.poolSize then
      (s, some .invalid_argument)
    else
      let s1 := { s with nextFreeIndex := (s.nextFreeIndex + sizeMod - 1) % sizeMod }
      let s2 := { s1 with availableSlots := (s1.availableSlots + 1) % sizeMod }
      let s3 := { s2 with freeOffsets := s2.freeOffsets.set s2.nextFreeIndex offset }
      (s3, none)

/-- The free region `freeOffsets[nextFreeIndex .. poolSize)` of the offset array. -/
def freeRegion (s : MemoryPool) : List Nat := s.freeOffsets.drop s.nextFreeIndex

/-- The calls `allocate()` performed `k` times in a row, as in the filling loops of
`test_full_pool` and `test_multiple_alloc_dealloc`: the returned pointers in call order and
the state after the last call. -/
def allocateN : Nat → MemoryPool → List Nat × MemoryPool
  | 0, s => ([], s)
  | k + 1, s =>
    let r := allocate s
    let rest := allocateN k r.2
    (r.1 :: rest.1, rest.2)

/-- The loop `for (auto obj : objects) pool.deallocate(obj);`: the first exception thrown
ends the loop. -/
def deallocateAll : MemoryPool → List Nat → Except Exn MemoryPool
  | s, [] => .ok s
  | s, p :: ps =>
    match deallocate s p with
    | .ok s' => deallocateAll s' ps
    | .error e => .error e

/-- The buffer fits: `sizeof(T)` is at least one byte and `std::malloc`
returned a non-null block of `poolSize * objectSize` bytes that ends inside the 64-bit
address space. -/
def Fits (objectSize base poolSize : Nat) : Prop :=
  1 ≤ objectSize ∧ 0 < base ∧ base + poolSize * objectSize ≤ sizeMod

instance (objectSize base poolSize : Nat) : Decidable (Fits objectSize base poolSize) := by
  unfold Fits; infer_instance

/-- The state of a usable pool: the buffer is a non-null block inside the address space, the
offset array has `poolSize` entries, each of them below `poolSize`, and the counter
`availableSlots` and the stack index `nextFreeIndex` add up to `poolSize`. -/
def Valid (s : MemoryPool) : Prop :=
  Fits s.objectSize s.memoryPool s.poolSize ∧ 0 < s.poolSize ∧
  s.freeOffsets.length = s.poolSize ∧ (∀ x ∈ s.freeOffsets, x < s.poolSize) ∧
  s.availableSlots + s.nextFreeIndex = s.poolSize

instance (s : MemoryPool) : Decidable (Valid s) := by
  unfold Valid; infer_instance

/-- The two counters are `size_t` values and agree in `size_t` arithmetic:
`availableSlots + nextFreeIndex == poolSize` evaluated modulo `2 ^ 64`. -/
def CountersAgree (s : MemoryPool) : Prop :=
  s.availableSlots < sizeMod ∧ s.nextFreeIndex < sizeMod ∧
  (s.availableSlots + s.nextFreeIndex) % sizeMod = s.poolSize

instance (s : MemoryPool) : Decidable (CountersAgree s) := by
  unfold CountersAgree; infer_instance

end MemoryPool

/-! ## Call sequences of a client -/

/-- One call on the pool. -/
inductive Op where
  | allocate
  | deallocate (ptr : Nat)
  deriving DecidableEq, Repr

/-- The pool together with the handles its caller holds: every non-null pointer returned by
`allocate()` is recorded once per call that returned it, and a successful `deallocate(ptr)`
removes one record of `ptr`. -/
structure Client where
  pool : MemoryPool
  outstanding : List Nat
  deriving DecidableEq, Repr

namespace Client

/-- The effect of one call. A `deallocate` that throws leaves the pool and the handles as
they were. -/
def step (c : Client) : Op → Client
  | .allocate =>
    let r := c.pool.allocate
    if r.1 = 0 then { c with pool := r.2 }
    else { pool := r.2, outstanding := r.1 :: c.outstanding }
  | .deallocate ptr =>
    match c.pool.deallocate ptr with
    | .ok s' => { pool := s', outstanding := c.outstanding.erase ptr }
    | .error _ => c

/-- The effect of a sequence of calls. -/
def run (c : Client) (ops : List Op) : Client := ops.foldl step c

/-- A sequence of calls is well formed when every `deallocate(ptr)` in it is given a handle
that is outstanding at the time of the call. -/
def wellFormed : Client → List Op → Bool
  | _, [] => true
  | c, .allocate :: ops => wellFormed (c.step .allocate) ops
  | c, .deallocate ptr :: ops =>
    decide (ptr ∈ c.outstanding) && wellFormed (c.step (.deallocate ptr)) ops

/-- The index of `freeOffsets` that a call touches: `allocate()` reads
`freeOffsets[nextFreeIndex]` unless it returns early, and `deallocate(ptr)` writes
`freeOffsets[nextFreeIndex]` after the decrement unless it returns early or throws. -/
def accessIndex (c : Client) : Op → Option Nat
  | .allocate =>
    if c.pool.availableSlots = 0 then none else some c.pool.nextFreeIndex
  | .deallocate ptr =>
    if ptr = 0 then none
    else if c.pool.ptrOffset ptr ≥ c.pool.poolSize then none
    else some ((c.pool.nextFreeIndex + sizeMod - 1) % sizeMod)

/-- The pool is usable, the caller holds as many handles as slots have been taken from the
stack, and every handle held points into the first `poolSize` bytes of the buffer. -/
def Inv (c : Client) : Prop :=
  c.pool.Valid ∧ c.outstanding.length = c.pool.nextFreeIndex ∧
  ∀ h ∈ c.outstanding, c.pool.memoryPool ≤ h ∧ h < c.pool.memoryPool + c.pool.poolSize

end Client

/-! ## Auxiliary lemmas -/

open MemoryPool Client

/-! ### The constructor loop -/

theorem set_take_succ (a : List Nat) (i x : Nat) (h : i < a.length) :
    (a.set i x).take (i + 1) = a.take i ++ [x] := by
  induction a generalizing i with
  | nil => simp at h
  | cons y ys ih =>
    cases i with
    | zero => simp
    | succ j =>
      simp only [List.length_cons, Nat.add_lt_add_iff_right] at h
      simp [List.set, List.take, ih j h]

theorem set_drop_succ (a : List Nat) (i x : Nat) :
    (a.set i x).drop (i + 1) = a.drop (i + 1) := by
  induction a generalizing i with
  | nil => simp
  | cons y ys ih =>
    cases i with
    | zero => simp
    | succ j => simp [List.set, ih j]

theorem initLoop_eq (k : Nat) : ∀ (i : Nat) (a : List Nat), i + k ≤ a.length →
    initLoop k i a = a.take i ++ List.range' i k ++ a.drop (i + k) := by
  induction k with
  | zero => intro i a _; simp [initLoop]
  | succ k ih =>
    intro i a h
    have hi : i < a.length := by omega
    have hlen : i + 1 + k ≤ (a.set i i).length := by simp; omega
    rw [initLoop, ih (i + 1) (a.set i i) hlen, set_take_succ a i i hi]
    have h2 : (a.set i i).drop (i + 1 + k) = a.drop (i + (k + 1)) := by
      rw [← List.drop_drop k (i + 1), set_drop_succ a i i, List.drop_drop]
      congr 1; omega
    rw [h2]
    simp [List.range'_succ]

theorem construct_eq (objectSize base n : Nat) (hn : n ≠ 0) :
    construct objectSize base n =
      .ok { objectSize := objectSize, memoryPool := base, freeOffsets := List.range n,
            poolSize := n, availableSlots := n, nextFreeIndex := 0 } := by
  have h := initLoop_eq n 0 (List.replicate n 0) (by simp)
  simp at h
  simp [construct, hn, h, List.range_eq_range']

/-! ### Arithmetic of addresses and offsets -/

theorem fits_base_add_lt {objectSize base n i : Nat} (hf : Fits objectSize base n)
    (hi : i < n) : base + i < sizeMod := by
  obtain ⟨h1, _, h3⟩ := hf
  have : n ≤ n * objectSize := Nat.le_mul_of_pos_right n h1
  omega

theorem valid_poolSize_lt {s : MemoryPool} (hv : s.Valid) : s.poolSize < sizeMod := by
  obtain ⟨⟨h1, h2, h3⟩, _⟩ := hv
  have : s.poolSize ≤ s.poolSize * s.objectSize := Nat.le_mul_of_pos_right _ h1
  omega

theorem valid_construct {objectSize base n : Nat} {s0 : MemoryPool}
    (hf : Fits objectSize base n) (hn : 0 < n) (hc : construct objectSize base n = .ok s0) :
    s0.Valid := by
  rw [construct_eq objectSize base n (by omega)] at hc
  injection hc with hc
  subst hc
  refine ⟨hf, hn, by simp, ?_, by simp⟩
  intro x hx
  simpa using hx

theorem valid_getD_lt {s : MemoryPool} (hv : s.Valid) (i : Nat) (hi : i < s.poolSize) :
    s.freeOffsets.getD i 0 < s.poolSize := by
  obtain ⟨_, _, hlen, hall, _⟩ := hv
  have hi2 : i < s.freeOffsets.length := by omega
  rw [List.getD_eq_getElem _ _ hi2]
  exact hall _ (List.getElem_mem _)

/-- On a usable pool with a free slot, `allocate()` returns `memoryPool + freeOffsets[nextFreeIndex]`
and advances the stack index by one. -/
theorem allocate_of_valid {s : MemoryPool} (hv : s.Valid) (ha : s.availableSlots ≠ 0) :
    s.allocate = (s.memoryPool + s.freeOffsets.getD s.nextFreeIndex 0,
      { s with nextFreeIndex := s.nextFreeIndex + 1, availableSlots := s.availableSlots - 1 }) := by
  have hlt := valid_poolSize_lt hv
  have hidx := valid_getD_lt hv s.nextFreeIndex (by have := hv.2.2.2.2; omega)
  have hp := fits_base_add_lt hv.1 hidx
  have hsum := hv.2.2.2.2
  unfold sizeMod at hlt hp
  have e1 : (s.nextFreeIndex + 1) % sizeMod = s.nextFreeIndex + 1 := by
    unfold sizeMod; omega
  have e2 : (s.availableSlots + sizeMod - 1) % sizeMod = s.availableSlots - 1 := by
    unfold sizeMod; omega
  have e3 : (s.memoryPool + s.freeOffsets.getD s.nextFreeIndex 0) % sizeMod
      = s.memoryPool + s.freeOffsets.getD s.nextFreeIndex 0 := by
    unfold sizeMod; omega
  simp only [allocate, if_neg ha, e1, e2, e3]

theorem ptrOffset_of_ge (s : MemoryPool) (ptr : Nat) (h1 : s.memoryPool ≤ ptr)
    (h2 : ptr < sizeMod) : s.ptrOffset ptr = (ptr - s.memoryPool) / s.objectSize := by
  unfold ptrOffset
  congr 1
  unfold sizeMod at *
  omega

theorem ptrOffset_of_lt (s : MemoryPool) (ptr : Nat) (h1 : ptr < s.memoryPool)
    (h2 : s.memoryPool ≤ sizeMod) :
    s.ptrOffset ptr = (sizeMod - (s.memoryPool - ptr)) / s.objectSize := by
  unfold ptrOffset
  congr 1
  unfold sizeMod at *
  omega

/-! ### Preservation of the invariant -/

/-- On a usable pool with a slot taken, `deallocate` of a pointer into the first `poolSize`
bytes of the buffer succeeds, steps the stack index back by one and stores the computed
offset there. -/
theorem deallocate_of_valid {s : MemoryPool} (hv : s.Valid) {ptr : Nat}
    (h1 : s.memoryPool ≤ ptr) (h2 : ptr < s.memoryPool + s.poolSize)
    (ht : 0 < s.nextFreeIndex) :
    s.deallocate ptr = .ok { s with
      nextFreeIndex := s.nextFreeIndex - 1
      availableSlots := s.availableSlots + 1
      freeOffsets := s.freeOffsets.set (s.nextFreeIndex - 1)
        ((ptr - s.memoryPool) / s.objectSize) } := by
  have hlt := valid_poolSize_lt hv
  have hsum := hv.2.2.2.2
  obtain ⟨hobj, hbase, hfit⟩ := hv.1
  have hmul : s.poolSize ≤ s.poolSize * s.objectSize := Nat.le_mul_of_pos_right _ hobj
  have hp : ptr < sizeMod := by omega
  have hne : ptr ≠ 0 := by omega
  have hoff : (ptr - s.memoryPool) / s.objectSize < s.poolSize :=
    lt_of_le_of_lt (Nat.div_le_self _ _) (by omega)
  have e1 : (s.nextFreeIndex + sizeMod - 1) % sizeMod = s.nextFreeIndex - 1 := by
    unfold sizeMod at *; omega
  have e2 : (s.availableSlots + 1) % sizeMod = s.availableSlots + 1 := by
    unfold sizeMod at *; omega
  simp only [deallocate, if_neg hne, ptrOffset_of_ge s ptr h1 hp, ge_iff_le,
    if_neg (Nat.not_le.mpr hoff), e1, e2]

theorem valid_allocate {s : MemoryPool} (hv : s.Valid) : s.allocate.2.Valid := by
  by_cases ha : s.availableSlots = 0
  · simpa [allocate, ha] using hv
  · rw [allocate_of_valid hv ha]
    obtain ⟨hf, hn, hlen, hall, hsum⟩ := hv
    exact ⟨hf, hn, hlen, hall, by simp only; omega⟩

theorem inv_step_allocate {c : Client} (hc : c.Inv) : (c.step .allocate).Inv := by
  obtain ⟨hv, hlen, hmem⟩ := hc
  by_cases ha : c.pool.availableSlots = 0
  · have : c.pool.allocate = (0, c.pool) := by simp [allocate, ha]
    simp only [step, this]
    exact ⟨hv, hlen, hmem⟩
  · have hv2 := valid_allocate hv
    have hidx := valid_getD_lt hv c.pool.nextFreeIndex (by have := hv.2.2.2.2; omega)
    have hbase := hv.1.2.1
    rw [allocate_of_valid hv ha] at hv2
    simp only [step, allocate_of_valid hv ha]
    rw [if_neg (by omega)]
    refine ⟨hv2, by simp [hlen], ?_⟩
    intro h hh
    simp only [List.mem_cons] at hh
    rcases hh with rfl | hh
    · simp only; omega
    · exact hmem h hh

theorem inv_step_deallocate {c : Client} (hc : c.Inv) {ptr : Nat}
    (hp : ptr ∈ c.outstanding) : (c.step (.deallocate ptr)).Inv := by
  obtain ⟨hv, hlen, hmem⟩ := hc
  obtain ⟨h1, h2⟩ := hmem ptr hp
  have ht : 0 < c.pool.nextFreeIndex := by
    rw [← hlen]; exact List.length_pos_of_mem hp
  have hoff : (ptr - c.pool.memoryPool) / c.pool.objectSize < c.pool.poolSize :=
    lt_of_le_of_lt (Nat.div_le_self _ _) (by omega)
  simp only [step, deallocate_of_valid hv h1 h2 ht]
  obtain ⟨hf, hn, hl, hall, hsum⟩ := hv
  refine ⟨⟨hf, hn, by simp [hl], ?_, by simp only; omega⟩, ?_, ?_⟩
  · intro x hx
    rcases List.mem_or_eq_of_mem_set hx with hx | rfl
    · exact hall x hx
    · exact hoff
  · simp only [List.length_erase_of_mem hp, hlen]
  · intro h hh
    exact hmem h (List.mem_of_mem_erase hh)

theorem inv_run {ops : List Op} : ∀ {c : Client}, c.Inv → c.wellFormed ops = true →
    (c.run ops).Inv := by
  induction ops with
  | nil => intro c hc _; exact hc
  | cons op ops ih =>
    intro c hc hw
    cases op with
    | allocate =>
      simp only [wellFormed] at hw
      exact ih (inv_step_allocate hc) hw
    | deallocate ptr =>
      simp only [wellFormed, Bool.and_eq_true, decide_eq_true_eq] at hw
      exact ih (inv_step_deallocate hc hw.1) hw.2

theorem wellFormed_take {ops : List Op} : ∀ {c : Client} (k : Nat),
    c.wellFormed ops = true → c.wellFormed (ops.take k) = true := by
  induction ops with
  | nil => intro c k h; simpa using h
  | cons op ops ih =>
    intro c k hw
    cases k with
    | zero => simp [wellFormed]
    | succ k =>
      cases op with
      | allocate =>
        simp only [wellFormed, List.take_succ_cons] at hw ⊢
        exact ih k hw
      | deallocate ptr =>
        simp only [wellFormed, Bool.and_eq_true, decide_eq_true_eq, List.take_succ_cons] at hw ⊢
        exact ⟨hw.1, ih k hw.2⟩

theorem inv_fresh {objectSize base n : Nat} {s0 : MemoryPool}
    (hf : Fits objectSize base n) (hn : 0 < n) (hc : construct objectSize base n = .ok s0) :
    Client.Inv ⟨s0, []⟩ := by
  have hv := valid_construct hf hn hc
  have h0 : s0.nextFreeIndex = 0 := by
    rw [construct_eq objectSize base n (by omega)] at hc
    injection hc with hc
    subst hc; rfl
  exact ⟨hv, by simp [h0], by simp⟩

/-! ## C1 – C4: the address returned by `allocate()` is not scaled by `objectSize` -/

/-- C1, evaluated on the code: in `MemoryPool<TestObject> pool(3)` with `sizeof(TestObject) = 16`
and the buffer at address 4096, the second `allocate()` reads `idx = freeOffsets[1] = 1` and
moves `nextFreeIndex` from 1 to 2, but the address it returns is `4096 + 1`, the sum
`memoryPool + idx`, and not `4096 + 1 * 16`. -/
theorem C1_allocate_address_not_scaled :
    ∃ s0 : MemoryPool, construct 16 4096 3 = .ok s0 ∧
      (allocate s0).2.availableSlots ≠ 0 ∧
      (allocate s0).2.nextFreeIndex = 1 ∧
      (allocate s0).2.freeOffsets.getD 1 0 = 1 ∧
      (allocate (allocate s0).2).2.nextFreeIndex = 2 ∧
      (allocate (allocate s0).2).1 = 4096 + 1 ∧
      (allocate (allocate s0).2).1 ≠ 4096 + 1 * 16 :=
  ⟨⟨16, 4096, [0, 1, 2], 3, 3, 0⟩, by decide⟩

/-- C2, evaluated on the code: after the two `allocate()` calls of `test_basic_allocation`
(`pool(3)`, `sizeof(TestObject) = 16`, buffer at 4096) the handles 4096 and 4097 are both
outstanding, `deallocate` computes the slot index 0 for each of them, and their 16-byte
ranges overlap. -/
theorem C2_live_handles_share_slot_index :
    ∃ s0 : MemoryPool, construct 16 4096 3 = .ok s0 ∧
      wellFormed ⟨s0, []⟩ [.allocate, .allocate] = true ∧
      (run ⟨s0, []⟩ [.allocate, .allocate]).outstanding = [4097, 4096] ∧
      ptrOffset (run ⟨s0, []⟩ [.allocate, .allocate]).pool 4096 = 0 ∧
      ptrOffset (run ⟨s0, []⟩ [.allocate, .allocate]).pool 4097 = 0 ∧
      4097 < 4096 + s0.objectSize :=
  ⟨⟨16, 4096, [0, 1, 2], 3, 3, 0⟩, by decide⟩

/-- C3, evaluated on the code: in `pool(3)` with `sizeof(TestObject) = 16` and the buffer at
4096, after two `allocate()` calls the handle `X = 4097` is outstanding, `deallocate(X)`
succeeds, and the very next `allocate()` returns 4096, which is not `X` and is the other
handle still outstanding. -/
theorem C3_allocate_after_release_returns_other_handle :
    ∃ s0 s1 : MemoryPool, construct 16 4096 3 = .ok s0 ∧
      wellFormed ⟨s0, []⟩ [.allocate, .allocate, .deallocate 4097, .allocate] = true ∧
      (run ⟨s0, []⟩ [.allocate, .allocate]).outstanding = [4097, 4096] ∧
      deallocate (run ⟨s0, []⟩ [.allocate, .allocate]).pool 4097 = .ok s1 ∧
      (allocate s1).1 = 4096 ∧ (allocate s1).1 ≠ 4097 :=
  ⟨⟨16, 4096, [0, 1, 2], 3, 3, 0⟩, ⟨16, 4096, [0, 0, 2], 3, 2, 1⟩, by decide⟩

/-- C4, evaluated on the code: the call sequence of `test_multiple_alloc_dealloc` (`pool(4)`,
`sizeof(TestObject) = 16`, buffer at 4096: four `allocate()` calls, then the four handles
released in reverse order) is well formed and ends with `nextFreeIndex = 0` and the free
region `[0, 0, 0, 0]`, which holds the index 0 four times. -/
theorem C4_free_region_repeats_an_index :
    ∃ s0 : MemoryPool, construct 16 4096 4 = .ok s0 ∧
      wellFormed ⟨s0, []⟩ [.allocate, .allocate, .allocate, .allocate,
        .deallocate 4099, .deallocate 4098, .deallocate 4097, .deallocate 4096] = true ∧
      (run ⟨s0, []⟩ [.allocate, .allocate, .allocate, .allocate,
        .deallocate 4099, .deallocate 4098, .deallocate 4097, .deallocate 4096]).pool.freeRegion
        = [0, 0, 0, 0] ∧
      ¬ (run ⟨s0, []⟩ [.allocate, .allocate, .allocate, .allocate,
        .deallocate 4099, .deallocate 4098, .deallocate 4097, .deallocate 4096]).pool.freeRegion.Nodup :=
  ⟨⟨16, 4096, [0, 1, 2, 3], 4, 4, 0⟩, by decide⟩

/-! ## C5: capacity conservation -/

/-- C5: on a pool constructed with capacity `n > 0`, at every point `k` of every well-formed
sequence of `allocate`/`deallocate` calls, `getAvailableSlots()` plus the number of
outstanding handles equals `getPoolSize()`. -/
theorem C5_capacity_conservation (objectSize base n : Nat) (s0 : MemoryPool) (ops : List Op)
    (k : Nat) (hf : Fits objectSize base n) (hn : 0 < n)
    (hc : construct objectSize base n = .ok s0)
    (hw : wellFormed ⟨s0, []⟩ ops = true) :
    getAvailableSlots (run ⟨s0, []⟩ (ops.take k)).pool
        + (run ⟨s0, []⟩ (ops.take k)).outstanding.length
      = getPoolSize (run ⟨s0, []⟩ (ops.take k)).pool := by
  obtain ⟨hv, hlen, _⟩ := inv_run (inv_fresh hf hn hc) (wellFormed_take k hw)
  have hsum := hv.2.2.2.2
  simp only [getAvailableSlots, getPoolSize]
  omega

/-- Witness for C5: the scenario of the specification on `pool(3)` with 16-byte elements
(acquire A, acquire B, release A, acquire, acquire), observed after all five calls. -/
theorem C5_capacity_conservation_witness :
    Fits 16 4096 3 ∧ construct 16 4096 3 = .ok ⟨16, 4096, [0, 1, 2], 3, 3, 0⟩ ∧
    getAvailableSlots (run ⟨⟨16, 4096, [0, 1, 2], 3, 3, 0⟩, []⟩
        (List.take 5 [.allocate, .allocate, .deallocate 4096, .allocate, .allocate])).pool
      + (run ⟨⟨16, 4096, [0, 1, 2], 3, 3, 0⟩, []⟩
        (List.take 5 [.allocate, .allocate, .deallocate 4096, .allocate, .allocate])).outstanding.length
      = getPoolSize (run ⟨⟨16, 4096, [0, 1, 2], 3, 3, 0⟩, []⟩
        (List.take 5 [.allocate, .allocate, .deallocate 4096, .allocate, .allocate])).pool :=
  ⟨by decide, by decide,
    C5_capacity_conservation 16 4096 3 ⟨16, 4096, [0, 1, 2], 3, 3, 0⟩
      [.allocate, .allocate, .deallocate 4096, .allocate, .allocate] 5
      (by decide) (by decide) (by decide) (by decide)⟩

/-! ## C6, C7: pointers that `deallocate` rejects -/

/-- The bounds check of `deallocate` in terms of addresses: the
computed offset is below `poolSize` exactly when the pointer lies in the storage range
`[memoryPool, memoryPool + poolSize * objectSize)`. -/
theorem ptrOffset_lt_iff (s : MemoryPool) (ptr : Nat)
    (hf : Fits s.objectSize s.memoryPool s.poolSize) (hptr : ptr < sizeMod) :
    s.ptrOffset ptr < s.poolSize ↔
      (s.memoryPool ≤ ptr ∧ ptr < s.memoryPool + s.poolSize * s.objectSize) := by
  obtain ⟨hobj, hbase, hfit⟩ := hf
  rcases Nat.lt_or_ge ptr s.memoryPool with hlt | hge
  · rw [ptrOffset_of_lt s ptr hlt (by omega), Nat.div_lt_iff_lt_mul hobj]
    constructor
    · intro h; omega
    · intro h; omega
  · rw [ptrOffset_of_ge s ptr hge hptr, Nat.div_lt_iff_lt_mul hobj]
    constructor
    · intro h; exact ⟨hge, by omega⟩
    · intro h; omega

/-- C6: for a pool whose buffer fits in the address space and every non-null address outside
the storage range `[memoryPool, memoryPool + poolSize * objectSize)`, below it or at or
beyond its end, `deallocate` throws `std::invalid_argument`. -/
theorem C6_foreign_pointer_rejected (s : MemoryPool) (ptr : Nat)
    (hf : Fits s.objectSize s.memoryPool s.poolSize) (hnull : ptr ≠ 0) (hptr : ptr < sizeMod)
    (hout : ptr < s.memoryPool ∨ s.memoryPool + s.poolSize * s.objectSize ≤ ptr) :
    s.deallocate ptr = .error .invalid_argument := by
  have hiff := ptrOffset_lt_iff s ptr hf hptr
  have hge : s.ptrOffset ptr ≥ s.poolSize := by
    by_contra hcon
    have := hiff.mp (by omega)
    omega
  simp only [deallocate, if_neg hnull, if_pos hge]

/-- Witness for C6: on `pool(2)` with 16-byte elements at address 4096, the address 4000,
which lies below the buffer, is rejected. -/
theorem C6_foreign_pointer_rejected_witness :
    Fits 16 4096 2 ∧ (4000 < 4096 ∨ 4096 + 2 * 16 ≤ 4000) ∧
    deallocate ⟨16, 4096, [0, 1], 2, 2, 0⟩ 4000 = .error .invalid_argument :=
  ⟨by decide, by decide,
    C6_foreign_pointer_rejected ⟨16, 4096, [0, 1], 2, 2, 0⟩ 4000 (by decide) (by decide)
      (by decide) (by decide)⟩

/-- C7 as stated fails: on `pool(2)` with 16-byte elements at address 4096, after two
`allocate()` calls, the non-null pointer 4101 has byte offset 5, which is not a multiple of
16, and `deallocate(4101)` does not throw: it releases slot `5 / 16 = 0`. -/
theorem C7_misaligned_handle_accepted :
    ∃ s0 : MemoryPool, construct 16 4096 2 = .ok s0 ∧
      (4101 - 4096) % s0.objectSize ≠ 0 ∧
      deallocate (allocateN 2 s0).2 4101 ≠ .error .invalid_argument ∧
      deallocate (allocateN 2 s0).2 4101 = .ok ⟨16, 4096, [0, 0], 2, 1, 1⟩ :=
  ⟨⟨16, 4096, [0, 1], 2, 2, 0⟩, by decide⟩

/-- C7 amended: for a pool whose buffer fits in the address space and every non-null handle
whose byte offset from `memoryPool` is not a multiple of `objectSize`, `deallocate` throws
`std::invalid_argument` exactly when the handle lies outside the storage range
`[memoryPool, memoryPool + poolSize * objectSize)`; inside the range it does not throw and
stores the offset rounded down, `(ptr - memoryPool) / objectSize`, at the new
`nextFreeIndex`. -/
theorem C7_misaligned_rejected_iff_outside (s : MemoryPool) (ptr : Nat)
    (hf : Fits s.objectSize s.memoryPool s.poolSize) (hnull : ptr ≠ 0) (hptr : ptr < sizeMod)
    (_hmis : ((ptr : Int) - (s.memoryPool : Int)) % (s.objectSize : Int) ≠ 0) :
    (s.deallocate ptr = .error .invalid_argument ↔
      (ptr < s.memoryPool ∨ s.memoryPool + s.poolSize * s.objectSize ≤ ptr)) ∧
    ((s.memoryPool ≤ ptr ∧ ptr < s.memoryPool + s.poolSize * s.objectSize) →
      s.deallocate ptr = .ok { s with
        nextFreeIndex := (s.nextFreeIndex + sizeMod - 1) % sizeMod
        availableSlots := (s.availableSlots + 1) % sizeMod
        freeOffsets := s.freeOffsets.set ((s.nextFreeIndex + sizeMod - 1) % sizeMod)
          ((ptr - s.memoryPool) / s.objectSize) }) := by
  have hiff := ptrOffset_lt_iff s ptr hf hptr
  have hin : (s.memoryPool ≤ ptr ∧ ptr < s.memoryPool + s.poolSize * s.objectSize) →
      s.deallocate ptr = .ok { s with
        nextFreeIndex := (s.nextFreeIndex + sizeMod - 1) % sizeMod
        availableSlots := (s.availableSlots + 1) % sizeMod
        freeOffsets := s.freeOffsets.set ((s.nextFreeIndex + sizeMod - 1) % sizeMod)
          ((ptr - s.memoryPool) / s.objectSize) } := by
    intro h
    have hlt := hiff.mpr h
    rw [ptrOffset_of_ge s ptr h.1 hptr] at hlt
    simp only [deallocate, if_neg hnull, ge_iff_le, ptrOffset_of_ge s ptr h.1 hptr,
      if_neg (Nat.not_le.mpr hlt)]
  refine ⟨⟨?_, ?_⟩, hin⟩
  · intro herr
    by_contra hcon
    rw [hin (by omega)] at herr
    cases herr
  · intro hout
    have hge : s.ptrOffset ptr ≥ s.poolSize := by
      by_contra hcon
      have := hiff.mp (by omega)
      omega
    simp only [deallocate, if_neg hnull, if_pos hge]

/-- Witness for C7 amended: the pointer 4101 into `pool(2)` with 16-byte elements at 4096. -/
theorem C7_misaligned_rejected_iff_outside_witness :
    Fits 16 4096 2 ∧ ((4101 : Int) - (4096 : Int)) % (16 : Int) ≠ 0 ∧
    (deallocate ⟨16, 4096, [0, 1], 2, 0, 2⟩ 4101 = .error .invalid_argument ↔
      (4101 < 4096 ∨ 4096 + 2 * 16 ≤ 4101)) ∧
    deallocate ⟨16, 4096, [0, 1], 2, 0, 2⟩ 4101 = .ok ⟨16, 4096, [0, 0], 2, 1, 1⟩ :=
  have h := C7_misaligned_rejected_iff_outside ⟨16, 4096, [0, 1], 2, 0, 2⟩ 4101
    (by decide) (by decide) (by decide) (by decide)
  ⟨by decide, by decide, h.1, by decide⟩

/-! ## C8 – C10: the full and empty boundaries -/

/-- Filling a fresh pool: starting with `t` slots taken from the initial offset array,
`k` further `allocate()` calls return the addresses `base + t, …, base + t + k - 1`. -/
theorem allocateN_range (objectSize base n : Nat) (hf : Fits objectSize base n) (k : Nat) :
    ∀ t : Nat, t + k ≤ n →
      allocateN k ⟨objectSize, base, List.range n, n, n - t, t⟩ =
        ((List.range' t k).map (fun i => base + i),
          ⟨objectSize, base, List.range n, n, n - (t + k), t + k⟩) := by
  induction k with
  | zero => intro t _; simp [allocateN]
  | succ k ih =>
    intro t ht
    have hv : Valid ⟨objectSize, base, List.range n, n, n - t, t⟩ := by
      refine ⟨hf, by show 0 < n; omega, by simp, ?_, by simp only; omega⟩
      intro x hx
      simpa using hx
    have ha : (⟨objectSize, base, List.range n, n, n - t, t⟩ : MemoryPool).availableSlots ≠ 0 := by
      simp only; omega
    have hget : (List.range n).getD t 0 = t := by
      rw [List.getD_eq_getElem _ _ (by simp; omega)]
      simp
    have hstep := allocate_of_valid hv ha
    simp only [hget] at hstep
    have hih := ih (t + 1) (by omega)
    have e1 : n - t - 1 = n - (t + 1) := by omega
    have e2 : t + 1 + k = t + (k + 1) := by omega
    rw [allocateN, hstep]
    simp only [e1, hih, e2, List.range'_succ, List.map_cons]

theorem allocateN_fresh (objectSize base n : Nat) (s0 : MemoryPool)
    (hf : Fits objectSize base n) (hn : 0 < n) (hc : construct objectSize base n = .ok s0) :
    allocateN n s0 = ((List.range n).map (fun i => base + i),
      ⟨objectSize, base, List.range n, n, 0, n⟩) := by
  rw [construct_eq objectSize base n (by omega)] at hc
  injection hc with hc
  subst hc
  have h := allocateN_range objectSize base n hf n 0 (by omega)
  simpa [List.range_eq_range'] using h

/-- C8: for every capacity `n > 0`, the first `n` `allocate()` calls on a freshly
constructed pool each return a non-null handle; after them `isFull()` is true and
`getAvailableSlots()` is 0, and the next `allocate()` returns `nullptr`. -/
theorem C8_full_boundary (objectSize base n : Nat) (s0 : MemoryPool)
    (hf : Fits objectSize base n) (hn : 0 < n) (hc : construct objectSize base n = .ok s0) :
    (allocateN n s0).1.length = n ∧ (∀ h ∈ (allocateN n s0).1, h ≠ 0) ∧
    isFull (allocateN n s0).2 = true ∧ getAvailableSlots (allocateN n s0).2 = 0 ∧
    (allocate (allocateN n s0).2).1 = 0 := by
  rw [allocateN_fresh objectSize base n s0 hf hn hc]
  refine ⟨by simp, ?_, by simp [isFull], by simp [getAvailableSlots], by simp [allocate]⟩
  intro h hh
  simp only [List.mem_map, List.mem_range] at hh
  obtain ⟨i, _, rfl⟩ := hh
  have := hf.2.1
  omega

/-- Witness for C8: `test_full_pool`, `pool(5)` with 16-byte elements at address 4096. -/
theorem C8_full_boundary_witness :
    Fits 16 4096 5 ∧ construct 16 4096 5 = .ok ⟨16, 4096, [0, 1, 2, 3, 4], 5, 5, 0⟩ ∧
    (allocateN 5 ⟨16, 4096, [0, 1, 2, 3, 4], 5, 5, 0⟩).1 = [4096, 4097, 4098, 4099, 4100] ∧
    isFull (allocateN 5 ⟨16, 4096, [0, 1, 2, 3, 4], 5, 5, 0⟩).2 = true ∧
    (allocate (allocateN 5 ⟨16, 4096, [0, 1, 2, 3, 4], 5, 5, 0⟩).2).1 = 0 :=
  have h := C8_full_boundary 16 4096 5 ⟨16, 4096, [0, 1, 2, 3, 4], 5, 5, 0⟩
    (by decide) (by decide) (by decide)
  ⟨by decide, by decide, by decide, h.2.2.1, h.2.2.2.2⟩

/-- Releasing a list of pointers into the first `poolSize` bytes of the buffer, no longer
than the number of slots taken: no call throws and each one adds an available slot. -/
theorem deallocateAll_of_valid (l : List Nat) : ∀ s : MemoryPool, s.Valid →
    l.length ≤ s.nextFreeIndex →
    (∀ h ∈ l, s.memoryPool ≤ h ∧ h < s.memoryPool + s.poolSize) →
    ∃ s1, deallocateAll s l = .ok s1 ∧ s1.poolSize = s.poolSize ∧
      s1.availableSlots = s.availableSlots + l.length ∧
      s1.nextFreeIndex + l.length = s.nextFreeIndex := by
  induction l with
  | nil => intro s _ _ _; exact ⟨s, rfl, rfl, rfl, rfl⟩
  | cons p ps ih =>
    intro s hv hlen hmem
    simp only [List.length_cons] at hlen
    obtain ⟨h1, h2⟩ := hmem p (List.mem_cons_self _ _)
    have hd := deallocate_of_valid hv h1 h2 (by omega)
    have hoff : (p - s.memoryPool) / s.objectSize < s.poolSize :=
      lt_of_le_of_lt (Nat.div_le_self _ _) (by omega)
    obtain ⟨hf, hn, hl, hall, hsum⟩ := hv
    have hv2 : Valid { s with
        nextFreeIndex := s.nextFreeIndex - 1
        availableSlots := s.availableSlots + 1
        freeOffsets := s.freeOffsets.set (s.nextFreeIndex - 1)
          ((p - s.memoryPool) / s.objectSize) } := by
      refine ⟨hf, hn, by simp [hl], ?_, by simp only; omega⟩
      intro x hx
      rcases List.mem_or_eq_of_mem_set hx with hx | rfl
      · exact hall x hx
      · exact hoff
    obtain ⟨s1, hs1, hp1, ha1, ht1⟩ := ih _ hv2 (by simp only; omega)
      (fun h hh => hmem h (List.mem_cons_of_mem _ hh))
    refine ⟨s1, ?_, hp1, ?_, ?_⟩
    · simp only [deallocateAll, hd, hs1]
    · simp only [List.length_cons] at ha1 ⊢; omega
    · simp only [List.length_cons] at ht1 ⊢; omega

/-- C9: for every capacity `n > 0`, after a fresh pool is filled by `n` `allocate()` calls,
releasing the `n` returned handles in any order (any permutation of them) succeeds and
leaves `isEmpty()` true and `getAvailableSlots() = n`. -/
theorem C9_empty_boundary (objectSize base n : Nat) (s0 : MemoryPool) (order : List Nat)
    (hf : Fits objectSize base n) (hn : 0 < n) (hc : construct objectSize base n = .ok s0)
    (hperm : order.Perm (allocateN n s0).1) :
    ∃ s1, deallocateAll (allocateN n s0).2 order = .ok s1 ∧
      isEmpty s1 = true ∧ getAvailableSlots s1 = n := by
  rw [allocateN_fresh objectSize base n s0 hf hn hc] at hperm ⊢
  have hv : Valid ⟨objectSize, base, List.range n, n, 0, n⟩ := by
    refine ⟨hf, hn, by simp, ?_, by simp⟩
    intro x hx
    simpa using hx
  have hlen : order.length = n := by simpa using hperm.length_eq
  obtain ⟨s1, hs1, hp1, ha1, _⟩ := deallocateAll_of_valid order _ hv (by simp only; omega)
    (by
      intro h hh
      have := hperm.mem_iff.mp hh
      simp only [List.mem_map, List.mem_range] at this
      obtain ⟨i, hi, rfl⟩ := this
      simp only; omega)
  simp only at hp1 ha1
  exact ⟨s1, hs1, by simp [isEmpty, hp1, ha1, hlen], by simp [getAvailableSlots, ha1, hlen]⟩

/-- Witness for C9: `pool(3)` with 16-byte elements at 4096, handles released in the order
third, first, second. -/
theorem C9_empty_boundary_witness :
    Fits 16 4096 3 ∧ construct 16 4096 3 = .ok ⟨16, 4096, [0, 1, 2], 3, 3, 0⟩ ∧
    (allocateN 3 ⟨16, 4096, [0, 1, 2], 3, 3, 0⟩).1 = [4096, 4097, 4098] ∧
    ∃ s1, deallocateAll (allocateN 3 ⟨16, 4096, [0, 1, 2], 3, 3, 0⟩).2 [4098, 4096, 4097]
        = .ok s1 ∧ isEmpty s1 = true ∧ getAvailableSlots s1 = 3 :=
  ⟨by decide, by decide, by decide,
    C9_empty_boundary 16 4096 3 ⟨16, 4096, [0, 1, 2], 3, 3, 0⟩ [4098, 4096, 4097]
      (by decide) (by decide) (by decide) (by decide)⟩

/-- C10: in every usable pool state, `allocate()` returns `nullptr` if and only if
`nextFreeIndex == poolSize`, which holds if and only if `getAvailableSlots() == 0`; in every
other state it returns a non-null handle. -/
theorem C10_full_signal_iff_no_free_slot (s : MemoryPool) (hv : s.Valid) :
    ((allocate s).1 = 0 ↔ s.nextFreeIndex = s.poolSize) ∧
    (s.nextFreeIndex = s.poolSize ↔ getAvailableSlots s = 0) ∧
    (getAvailableSlots s ≠ 0 → (allocate s).1 ≠ 0) := by
  have hsum := hv.2.2.2.2
  have hbase := hv.1.2.1
  have hnz : s.availableSlots ≠ 0 → (allocate s).1 ≠ 0 := by
    intro ha
    rw [allocate_of_valid hv ha]
    simp only; omega
  refine ⟨⟨?_, ?_⟩, by simp only [getAvailableSlots]; omega, hnz⟩
  · intro h0
    by_contra hne
    exact hnz (by omega) h0
  · intro ht
    have ha : s.availableSlots = 0 := by omega
    simp [allocate, ha]

/-- Witness for C10: `pool(3)` with 16-byte elements at 4096 after one `allocate()`. -/
theorem C10_full_signal_iff_no_free_slot_witness :
    Valid ⟨16, 4096, [0, 1, 2], 3, 2, 1⟩ ∧
    (allocate ⟨16, 4096, [0, 1, 2], 3, 2, 1⟩).1 ≠ 0 :=
  ⟨by decide,
    (C10_full_signal_iff_no_free_slot ⟨16, 4096, [0, 1, 2], 3, 2, 1⟩ (by decide)).2.2
      (by decide)⟩

/-! ## Outcomes of a single call, field by field -/

/-- The two outcomes of `allocate()`, field by field. -/
theorem allocate_cases (s : MemoryPool) :
    (s.availableSlots = 0 ∧ s.allocate = (0, s)) ∨
    (s.availableSlots ≠ 0 ∧ ∃ p s1, s.allocate = (p, s1) ∧
      p = (s.memoryPool + s.freeOffsets.getD s.nextFreeIndex 0) % sizeMod ∧
      s1.objectSize = s.objectSize ∧ s1.memoryPool = s.memoryPool ∧
      s1.poolSize = s.poolSize ∧ s1.freeOffsets = s.freeOffsets ∧
      s1.nextFreeIndex = (s.nextFreeIndex + 1) % sizeMod ∧
      s1.availableSlots = (s.availableSlots + sizeMod - 1) % sizeMod) := by
  by_cases ha : s.availableSlots = 0
  · exact Or.inl ⟨ha, by unfold allocate; rw [if_pos ha]⟩
  · refine Or.inr ⟨ha, (s.memoryPool + s.freeOffsets.getD s.nextFreeIndex 0) % sizeMod,
      { s with
        nextFreeIndex := (s.nextFreeIndex + 1) % sizeMod
        availableSlots := (s.availableSlots + sizeMod - 1) % sizeMod },
      by unfold allocate; rw [if_neg ha], rfl, rfl, rfl, rfl, rfl, rfl, rfl⟩

/-- The three outcomes of `deallocate(ptr)`, field by field. -/
theorem deallocate_cases (s : MemoryPool) (ptr : Nat) :
    (ptr = 0 ∧ s.deallocate ptr = .ok s) ∨
    (ptr ≠ 0 ∧ s.poolSize ≤ s.ptrOffset ptr ∧ s.deallocate ptr = .error .invalid_argument) ∨
    (ptr ≠ 0 ∧ s.ptrOffset ptr < s.poolSize ∧ ∃ s1, s.deallocate ptr = .ok s1 ∧
      s1.objectSize = s.objectSize ∧ s1.memoryPool = s.memoryPool ∧
      s1.poolSize = s.poolSize ∧
      s1.nextFreeIndex = (s.nextFreeIndex + sizeMod - 1) % sizeMod ∧
      s1.availableSlots = (s.availableSlots + 1) % sizeMod ∧
      s1.freeOffsets
        = s.freeOffsets.set ((s.nextFreeIndex + sizeMod - 1) % sizeMod) (s.ptrOffset ptr)) := by
  by_cases hp : ptr = 0
  · exact Or.inl ⟨hp, by unfold deallocate; rw [if_pos hp]⟩
  · by_cases ho : s.ptrOffset ptr ≥ s.poolSize
    · exact Or.inr (Or.inl ⟨hp, ho, by unfold deallocate; rw [if_neg hp]; simp only [if_pos ho]⟩)
    · refine Or.inr (Or.inr ⟨hp, Nat.lt_of_not_le ho,
        { s with
          nextFreeIndex := (s.nextFreeIndex + sizeMod - 1) % sizeMod
          availableSlots := (s.availableSlots + 1) % sizeMod
          freeOffsets := s.freeOffsets.set ((s.nextFreeIndex + sizeMod - 1) % sizeMod)
            (s.ptrOffset ptr) },
        by unfold deallocate; rw [if_neg hp]; simp only [if_neg ho], rfl, rfl, rfl, rfl, rfl, rfl⟩)

theorem step_allocate_eq {c : Client} {p : Nat} {s1 : MemoryPool}
    (h : c.pool.allocate = (p, s1)) :
    c.step .allocate = if p = 0 then { c with pool := s1 }
      else { pool := s1, outstanding := p :: c.outstanding } := by
  simp only [step, h]

theorem step_deallocate_ok {c : Client} {ptr : Nat} {s1 : MemoryPool}
    (h : c.pool.deallocate ptr = .ok s1) :
    c.step (.deallocate ptr) = { pool := s1, outstanding := c.outstanding.erase ptr } := by
  simp only [step, h]

theorem step_deallocate_error {c : Client} {ptr : Nat} {e : Exn}
    (h : c.pool.deallocate ptr = .error e) : c.step (.deallocate ptr) = c := by
  simp only [step, h]

/-- The pool after one call, whatever the call: either the pool is as before, or it is the
pool `s1` after a successful `allocate()` or `deallocate(ptr)` with the fields listed. -/
theorem step_pool_cases (c : Client) (op : Op) :
    (c.step op).pool = c.pool ∨
    (c.pool.availableSlots ≠ 0 ∧
      (c.step op).pool.objectSize = c.pool.objectSize ∧
      (c.step op).pool.memoryPool = c.pool.memoryPool ∧
      (c.step op).pool.poolSize = c.pool.poolSize ∧
      (c.step op).pool.nextFreeIndex = (c.pool.nextFreeIndex + 1) % sizeMod ∧
      (c.step op).pool.availableSlots = (c.pool.availableSlots + sizeMod - 1) % sizeMod) ∨
    ((c.step op).pool.objectSize = c.pool.objectSize ∧
      (c.step op).pool.memoryPool = c.pool.memoryPool ∧
      (c.step op).pool.poolSize = c.pool.poolSize ∧
      (c.step op).pool.nextFreeIndex = (c.pool.nextFreeIndex + sizeMod - 1) % sizeMod ∧
      (c.step op).pool.availableSlots = (c.pool.availableSlots + 1) % sizeMod) := by
  cases op with
  | allocate =>
    rcases allocate_cases c.pool with ⟨_, h⟩ | ⟨ha, p, s1, h, _, h1, h2, h3, _, h5, h6⟩
    · left
      rw [step_allocate_eq h]
      simp only [if_pos]
    · right; left
      rw [step_allocate_eq h]
      by_cases hp : p = 0
      · rw [if_pos hp]; exact ⟨ha, h1, h2, h3, h5, h6⟩
      · rw [if_neg hp]; exact ⟨ha, h1, h2, h3, h5, h6⟩
  | deallocate ptr =>
    rcases deallocate_cases c.pool ptr with ⟨_, h⟩ | ⟨_, _, h⟩ | ⟨_, _, s1, h, h1, h2, h3, h4, h5, _⟩
    · left; rw [step_deallocate_ok h]
    · left; rw [step_deallocate_error h]
    · right; right
      rw [step_deallocate_ok h]
      exact ⟨h1, h2, h3, h4, h5⟩

theorem step_frame (c : Client) (op : Op) :
    (c.step op).pool.objectSize = c.pool.objectSize ∧
    (c.step op).pool.memoryPool = c.pool.memoryPool ∧
    (c.step op).pool.poolSize = c.pool.poolSize := by
  rcases step_pool_cases c op with h | ⟨_, h1, h2, h3, _⟩ | ⟨h1, h2, h3, _⟩
  · rw [h]; exact ⟨rfl, rfl, rfl⟩
  · exact ⟨h1, h2, h3⟩
  · exact ⟨h1, h2, h3⟩

/-- No sequence of calls changes the element size, the buffer address or the capacity. -/
theorem run_frame (ops : List Op) : ∀ c : Client,
    (c.run ops).pool.objectSize = c.pool.objectSize ∧
    (c.run ops).pool.memoryPool = c.pool.memoryPool ∧
    (c.run ops).pool.poolSize = c.pool.poolSize := by
  induction ops with
  | nil => intro c; exact ⟨rfl, rfl, rfl⟩
  | cons op ops ih =>
    intro c
    obtain ⟨h1, h2, h3⟩ := ih (c.step op)
    obtain ⟨g1, g2, g3⟩ := step_frame c op
    have e : c.run (op :: ops) = (c.step op).run ops := rfl
    rw [e]
    exact ⟨h1.trans g1, h2.trans g2, h3.trans g3⟩

/-- Every call, whatever its argument, keeps the two counters in step modulo `2 ^ 64`. -/
theorem countersAgree_step (c : Client) (op : Op) (h : c.pool.CountersAgree) :
    (c.step op).pool.CountersAgree := by
  obtain ⟨h1, h2, h3⟩ := h
  have hpos : 0 < sizeMod := by unfold sizeMod; omega
  rcases step_pool_cases c op with e | ⟨ha, _, _, e3, e4, e5⟩ | ⟨_, _, e3, e4, e5⟩
  · rw [e]; exact ⟨h1, h2, h3⟩
  · refine ⟨by rw [e5]; exact Nat.mod_lt _ hpos, by rw [e4]; exact Nat.mod_lt _ hpos, ?_⟩
    rw [e3, e4, e5]
    unfold sizeMod at *
    omega
  · refine ⟨by rw [e5]; exact Nat.mod_lt _ hpos, by rw [e4]; exact Nat.mod_lt _ hpos, ?_⟩
    rw [e3, e4, e5]
    unfold sizeMod at *
    omega

theorem countersAgree_run (ops : List Op) : ∀ c : Client, c.pool.CountersAgree →
    (c.run ops).pool.CountersAgree := by
  induction ops with
  | nil => intro c h; exact h
  | cons op ops ih =>
    intro c h
    exact ih (c.step op) (countersAgree_step c op h)

/-! ## C11 – C14: null release, construction, successful release -/

/-- C11: in every pool state `deallocate(nullptr)` does not throw and changes nothing:
`getAvailableSlots()`, `nextFreeIndex` and every entry of `freeOffsets` are as before. -/
theorem C11_deallocate_null_is_noop (s : MemoryPool) :
    ∃ s1, deallocate s 0 = .ok s1 ∧ s1 = s ∧
      getAvailableSlots s1 = getAvailableSlots s ∧ s1.nextFreeIndex = s.nextFreeIndex ∧
      s1.freeOffsets = s.freeOffsets :=
  ⟨s, by simp [deallocate], rfl, rfl, rfl, rfl⟩

/-- The checked loop has a result exactly when all its writes are inside the array, and the
result is that of the unchecked loop. -/
theorem initLoopChecked_eq (words : Nat) (k : Nat) : ∀ (i : Nat) (a : List Nat),
    initLoopChecked words k i a =
      if k = 0 ∨ i + k ≤ words then some (initLoop k i a) else none := by
  induction k with
  | zero => intro i a; simp [initLoopChecked, initLoop]
  | succ k ih =>
    intro i a
    rw [initLoopChecked, initLoop]
    by_cases hi : i < words
    · rw [if_pos hi, ih]
      by_cases hk : k = 0 ∨ i + 1 + k ≤ words
      · rw [if_pos hk, if_pos (Or.inr (by omega))]
      · rw [if_neg hk, if_neg (by omega)]
    · rw [if_neg hi, if_neg (by omega)]

/-- The outcome of the constructor for a positive capacity: it returns the pool of
`construct` when `poolSize * 8` does not wrap and the second `std::malloc` call returns a
block, and otherwise writes outside the block it was given. -/
theorem constructWith_pos (mallocPool mallocOffsets : Nat → Nat) (objectSize n : Nat)
    (hn : 0 < n) :
    (n * 8 < sizeMod ∧ mallocOffsets (n * 8) ≠ 0 ∧
      ∃ s, constructWith mallocPool mallocOffsets objectSize n = .built s ∧
        construct objectSize (mallocPool ((n * objectSize) % sizeMod)) n = .ok s) ∨
    ((sizeMod ≤ n * 8 ∨ mallocOffsets ((n * 8) % sizeMod) = 0) ∧
      constructWith mallocPool mallocOffsets objectSize n = .undefined) := by
  have hne : n ≠ 0 := by omega
  by_cases hgood : n * 8 < sizeMod ∧ mallocOffsets ((n * 8) % sizeMod) ≠ 0
  · obtain ⟨hlt, hblock⟩ := hgood
    have hmod : (n * 8) % sizeMod = n * 8 := Nat.mod_eq_of_lt hlt
    rw [hmod] at hblock
    have hwords : (if mallocOffsets (n * 8) = 0 then 0 else n * 8 / 8) = n := by
      rw [if_neg hblock]; omega
    refine Or.inl ⟨hlt, hblock, _, ?_, by unfold construct; rw [if_neg hne]⟩
    unfold constructWith
    rw [if_neg hne]
    simp only [hmod, hwords, initLoopChecked_eq, Nat.zero_add, le_refl, or_true, if_true]
  · have hwords : (if mallocOffsets ((n * 8) % sizeMod) = 0 then 0 else (n * 8) % sizeMod / 8)
        < n := by
      by_cases hb : mallocOffsets ((n * 8) % sizeMod) = 0
      · rw [if_pos hb]; exact hn
      · rw [if_neg hb]
        have : ¬ n * 8 < sizeMod := fun h => hgood ⟨h, hb⟩
        unfold sizeMod at *
        omega
    refine Or.inr ⟨?_, ?_⟩
    · by_cases hb : mallocOffsets ((n * 8) % sizeMod) = 0
      · exact Or.inr hb
      · exact Or.inl (Nat.le_of_not_lt fun h => hgood ⟨h, hb⟩)
    · unfold constructWith
      rw [if_neg hne]
      simp only [initLoopChecked_eq, Nat.zero_add]
      rw [if_neg (by omega)]

/-- C12 as stated fails: for the capacity `2 ^ 61 > 0` and 16-byte elements the request
`poolSize * sizeof(size_t)` wraps to 0 bytes, so even when both `std::malloc` calls return
non-null pointers the initialisation loop writes outside the offset array at its first
step, and the constructor neither throws nor returns a pool. -/
theorem C12_large_capacity_not_constructed :
    0 < 2 ^ 61 ∧ (2 ^ 61 * 8) % sizeMod = 0 ∧
    constructWith (fun _ => 4096) (fun _ => 8192) 16 (2 ^ 61) = .undefined ∧
    ¬ ∃ s, constructWith (fun _ => 4096) (fun _ => 8192) 16 (2 ^ 61) = .built s := by
  refine ⟨by decide, by decide, by decide, ?_⟩
  intro h
  obtain ⟨s, hs⟩ := h
  have hu : constructWith (fun _ => 4096) (fun _ => 8192) 16 (2 ^ 61) = .undefined := by decide
  rw [hu] at hs
  cases hs

/-- C12 amended: the constructor throws `std::invalid_argument` if and only if the requested
capacity is 0. It returns a pool if and only if the capacity is positive,
`poolSize * sizeof(size_t)` does not wrap in `size_t` and `std::malloc` returns a non-null
block for the offset array, and the pool is then the one `construct` describes. In every
other case with a positive capacity the initialisation loop writes outside the block it was
given and no exception is thrown. -/
theorem C12_construct_outcome (mallocPool mallocOffsets : Nat → Nat) (objectSize n : Nat) :
    (constructWith mallocPool mallocOffsets objectSize n = .threw .invalid_argument ↔ n = 0) ∧
    ((∃ s, constructWith mallocPool mallocOffsets objectSize n = .built s) ↔
      (0 < n ∧ n * 8 < sizeMod ∧ mallocOffsets (n * 8) ≠ 0)) ∧
    (∀ s, constructWith mallocPool mallocOffsets objectSize n = .built s ↔
      (n * 8 < sizeMod ∧ mallocOffsets (n * 8) ≠ 0 ∧
        construct objectSize (mallocPool ((n * objectSize) % sizeMod)) n = .ok s)) ∧
    (constructWith mallocPool mallocOffsets objectSize n = .undefined ↔
      (0 < n ∧ (sizeMod ≤ n * 8 ∨ mallocOffsets ((n * 8) % sizeMod) = 0))) := by
  rcases Nat.eq_zero_or_pos n with h0 | hpos
  · subst h0
    have hthrew : constructWith mallocPool mallocOffsets objectSize 0
        = .threw .invalid_argument := by
      unfold constructWith; rw [if_pos rfl]
    have herr : construct objectSize (mallocPool ((0 * objectSize) % sizeMod)) 0
        = .error .invalid_argument := by
      unfold construct; rw [if_pos rfl]
    rw [hthrew, herr]
    refine ⟨⟨fun _ => rfl, fun _ => rfl⟩, ⟨?_, ?_⟩, ?_, ⟨?_, ?_⟩⟩
    · rintro ⟨s, hs⟩; cases hs
    · rintro ⟨h, _⟩; exact absurd h (Nat.lt_irrefl 0)
    · intro s
      constructor
      · intro hs; cases hs
      · rintro ⟨_, _, hs⟩; cases hs
    · intro h; cases h
    · rintro ⟨h, _⟩; exact absurd h (Nat.lt_irrefl 0)
  · have hne : n ≠ 0 := by omega
    rcases constructWith_pos mallocPool mallocOffsets objectSize n hpos with
      ⟨hlt, hblock, s0, hb, hc⟩ | ⟨hbad, hu⟩
    · have hmod : (n * 8) % sizeMod = n * 8 := Nat.mod_eq_of_lt hlt
      rw [hb, hc]
      refine ⟨⟨?_, fun h => absurd h hne⟩, ⟨fun _ => ⟨hpos, hlt, hblock⟩, fun _ => ⟨s0, rfl⟩⟩,
        ?_, ⟨?_, ?_⟩⟩
      · intro h; cases h
      · intro s
        constructor
        · intro hs
          injection hs with hs
          subst hs
          exact ⟨hlt, hblock, rfl⟩
        · rintro ⟨_, _, hs⟩
          injection hs with hs
          subst hs
          rfl
      · intro h; cases h
      · rintro ⟨_, h | h⟩
        · omega
        · rw [hmod] at h; exact absurd h hblock
    · have hnot : ¬ (n * 8 < sizeMod ∧ mallocOffsets (n * 8) ≠ 0) := by
        rintro ⟨hlt, hblock⟩
        rcases hbad with h | h
        · omega
        · rw [Nat.mod_eq_of_lt hlt] at h; exact hblock h
      rw [hu]
      refine ⟨⟨?_, fun h => absurd h hne⟩, ⟨?_, ?_⟩, ?_, ⟨fun _ => ⟨hpos, hbad⟩, fun _ => rfl⟩⟩
      · intro h; cases h
      · rintro ⟨s, hs⟩; cases hs
      · rintro ⟨_, h1, h2⟩; exact absurd ⟨h1, h2⟩ hnot
      · intro s
        constructor
        · intro hs; cases hs
        · rintro ⟨h1, h2, _⟩; exact absurd ⟨h1, h2⟩ hnot

/-- Witness for C12 amended: `pool(3)` with 16-byte elements; the first `std::malloc` call
returns 4096 and the second 8192. -/
theorem C12_construct_outcome_witness :
    (0 < 3 ∧ 3 * 8 < sizeMod ∧ (fun _ : Nat => 8192) (3 * 8) ≠ 0) ∧
    constructWith (fun _ => 4096) (fun _ => 8192) 16 3
      = .built ⟨16, 4096, [0, 1, 2], 3, 3, 0⟩ ∧
    ∃ s, constructWith (fun _ => 4096) (fun _ => 8192) 16 3 = .built s :=
  ⟨by decide, by decide,
    (C12_construct_outcome (fun _ => 4096) (fun _ => 8192) 16 3).2.1.mpr (by decide)⟩

/-- C13: for every capacity `n > 0` the constructor returns a pool with `freeOffsets[i] = i`
for every `i < n` (and exactly `n` entries), `nextFreeIndex = 0`, `getPoolSize() = n` and
`getAvailableSlots() = n`, so that `isEmpty()` is true and `isFull()` is false. -/
theorem C13_initial_state (objectSize base n : Nat) (hn : 0 < n) :
    ∃ s0, construct objectSize base n = .ok s0 ∧
      s0.freeOffsets.length = n ∧ (∀ i, i < n → s0.freeOffsets[i]? = some i) ∧
      s0.nextFreeIndex = 0 ∧ getPoolSize s0 = n ∧ getAvailableSlots s0 = n ∧
      isEmpty s0 = true ∧ isFull s0 = false := by
  refine ⟨_, construct_eq objectSize base n (by omega), by simp, ?_, rfl, rfl, rfl,
    by simp [isEmpty], ?_⟩
  · intro i hi
    simp [List.getElem?_range hi]
  · simp only [isFull, beq_eq_false_iff_ne, ne_eq]
    omega

/-- Witness for C13: the pool of `test_empty_pool`, `pool(2)` with 16-byte elements. -/
theorem C13_initial_state_witness :
    ∃ s0, construct 16 4096 2 = .ok s0 ∧
      s0.freeOffsets.length = 2 ∧ (∀ i, i < 2 → s0.freeOffsets[i]? = some i) ∧
      s0.nextFreeIndex = 0 ∧ getPoolSize s0 = 2 ∧ getAvailableSlots s0 = 2 ∧
      isEmpty s0 = true ∧ isFull s0 = false :=
  C13_initial_state 16 4096 2 (by decide)

/-- C14: in every usable pool state with `nextFreeIndex > 0`, for every non-null pointer
whose computed offset `idx` is below `poolSize`, `deallocate` returns normally, decrements
`nextFreeIndex` by one, stores `idx` at the new `nextFreeIndex`, increases
`getAvailableSlots()` by exactly one, and leaves every other entry of `freeOffsets`, its
length, the capacity, the buffer address and the element size unchanged. -/
theorem C14_release_postcondition (s : MemoryPool) (ptr : Nat) (hv : s.Valid)
    (htop : 0 < s.nextFreeIndex) (hnull : ptr ≠ 0) (hidx : s.ptrOffset ptr < s.poolSize) :
    ∃ s1, deallocate s ptr = .ok s1 ∧
      s1.nextFreeIndex + 1 = s.nextFreeIndex ∧
      s1.freeOffsets[s1.nextFreeIndex]? = some (s.ptrOffset ptr) ∧
      getAvailableSlots s1 = getAvailableSlots s + 1 ∧
      (∀ i, i ≠ s1.nextFreeIndex → s1.freeOffsets[i]? = s.freeOffsets[i]?) ∧
      s1.freeOffsets.length = s.freeOffsets.length ∧
      getPoolSize s1 = getPoolSize s ∧ s1.memoryPool = s.memoryPool ∧
      s1.objectSize = s.objectSize := by
  have hlt := valid_poolSize_lt hv
  obtain ⟨_, _, hlen, _, hsum⟩ := hv
  have e1 : (s.nextFreeIndex + sizeMod - 1) % sizeMod = s.nextFreeIndex - 1 := by
    unfold sizeMod at *; omega
  have e2 : (s.availableSlots + 1) % sizeMod = s.availableSlots + 1 := by
    unfold sizeMod at *; omega
  refine ⟨{ s with
      nextFreeIndex := s.nextFreeIndex - 1
      availableSlots := s.availableSlots + 1
      freeOffsets := s.freeOffsets.set (s.nextFreeIndex - 1) (s.ptrOffset ptr) }, ?_, ?_, ?_,
    rfl, ?_, by simp, rfl, rfl, rfl⟩
  · simp only [deallocate, if_neg hnull, ge_iff_le, if_neg (Nat.not_le.mpr hidx), e1, e2]
  · simp only; omega
  · simp only
    rw [List.getElem?_set_self (by omega)]
  · intro i hi
    simp only at hi ⊢
    rw [List.getElem?_set_ne (by omega)]

/-- Witness for C14: `pool(3)` with 16-byte elements at 4096 after two `allocate()` calls,
releasing the handle 4096. -/
theorem C14_release_postcondition_witness :
    Valid ⟨16, 4096, [0, 1, 2], 3, 1, 2⟩ ∧
    ptrOffset ⟨16, 4096, [0, 1, 2], 3, 1, 2⟩ 4096 = 0 ∧
    ∃ s1, deallocate ⟨16, 4096, [0, 1, 2], 3, 1, 2⟩ 4096 = .ok s1 ∧
      s1.nextFreeIndex + 1 = 2 ∧
      s1.freeOffsets[s1.nextFreeIndex]? = some (ptrOffset ⟨16, 4096, [0, 1, 2], 3, 1, 2⟩ 4096) ∧
      getAvailableSlots s1 = getAvailableSlots ⟨16, 4096, [0, 1, 2], 3, 1, 2⟩ + 1 ∧
      (∀ i, i ≠ s1.nextFreeIndex → s1.freeOffsets[i]? = [0, 1, 2][i]?) ∧
      s1.freeOffsets.length = 3 ∧
      getPoolSize s1 = getPoolSize ⟨16, 4096, [0, 1, 2], 3, 1, 2⟩ ∧ s1.memoryPool = 4096 ∧
      s1.objectSize = 16 :=
  ⟨by decide, by decide,
    C14_release_postcondition ⟨16, 4096, [0, 1, 2], 3, 1, 2⟩ 4096
      (by decide) (by decide) (by decide) (by decide)⟩

/-! ## C15, C16: the counters under arbitrary calls, double release -/

/-- C15: in every state reached from a constructed pool by any sequence of `allocate` and
`deallocate` calls, the counter `availableSlots` agrees with the stack index in `size_t`
arithmetic: `getAvailableSlots() == poolSize - nextFreeIndex` and
`availableSlots + nextFreeIndex == poolSize` modulo `2 ^ 64`, `isFull()` holds iff
`nextFreeIndex == poolSize`, and `isEmpty()` holds iff `nextFreeIndex == 0`; whenever
`nextFreeIndex <= poolSize` the two equations hold without wrap-around. -/
theorem C15_query_consistency (objectSize base n : Nat) (s0 : MemoryPool) (ops : List Op)
    (hn : n < sizeMod) (hc : construct objectSize base n = .ok s0) :
    getAvailableSlots (run ⟨s0, []⟩ ops).pool
      = (getPoolSize (run ⟨s0, []⟩ ops).pool + sizeMod
          - (run ⟨s0, []⟩ ops).pool.nextFreeIndex) % sizeMod ∧
    ((run ⟨s0, []⟩ ops).pool.availableSlots + (run ⟨s0, []⟩ ops).pool.nextFreeIndex) % sizeMod
      = (run ⟨s0, []⟩ ops).pool.poolSize ∧
    (isFull (run ⟨s0, []⟩ ops).pool = true ↔
      (run ⟨s0, []⟩ ops).pool.nextFreeIndex = (run ⟨s0, []⟩ ops).pool.poolSize) ∧
    (isEmpty (run ⟨s0, []⟩ ops).pool = true ↔ (run ⟨s0, []⟩ ops).pool.nextFreeIndex = 0) ∧
    ((run ⟨s0, []⟩ ops).pool.nextFreeIndex ≤ (run ⟨s0, []⟩ ops).pool.poolSize →
      getAvailableSlots (run ⟨s0, []⟩ ops).pool
        = (run ⟨s0, []⟩ ops).pool.poolSize - (run ⟨s0, []⟩ ops).pool.nextFreeIndex ∧
      (run ⟨s0, []⟩ ops).pool.availableSlots + (run ⟨s0, []⟩ ops).pool.nextFreeIndex
        = (run ⟨s0, []⟩ ops).pool.poolSize) := by
  have hne : n ≠ 0 := by
    intro h0
    subst h0
    simp [construct] at hc
  have hc2 := hc
  rw [construct_eq objectSize base n hne] at hc2
  injection hc2 with hc2
  have h0 : CountersAgree (Client.mk s0 []).pool := by
    subst hc2
    refine ⟨hn, ?_, ?_⟩
    · show 0 < sizeMod
      unfold sizeMod; omega
    · show (n + 0) % sizeMod = n
      rw [Nat.add_zero]; exact Nat.mod_eq_of_lt hn
  have hp : (run ⟨s0, []⟩ ops).pool.poolSize = n := by
    rw [(run_frame ops ⟨s0, []⟩).2.2]
    subst hc2; rfl
  obtain ⟨h1, h2, h3⟩ := countersAgree_run ops ⟨s0, []⟩ h0
  simp only [getAvailableSlots, getPoolSize, isFull, isEmpty, beq_iff_eq]
  rw [hp] at h3 ⊢
  unfold sizeMod at *
  refine ⟨by omega, h3, by omega, by omega, by omega⟩

/-- Witness for C15: `pool(2)` with one-byte elements; the first call releases a slot that
was never allocated, so `nextFreeIndex` has wrapped when the three `allocate()` calls run. -/
theorem C15_query_consistency_witness :
    construct 1 4096 2 = .ok ⟨1, 4096, [0, 1], 2, 2, 0⟩ ∧
    (run ⟨⟨1, 4096, [0, 1], 2, 2, 0⟩, []⟩
      [.deallocate 4096, .allocate, .allocate, .allocate]).pool.nextFreeIndex = 2 ∧
    (isFull (run ⟨⟨1, 4096, [0, 1], 2, 2, 0⟩, []⟩
        [.deallocate 4096, .allocate, .allocate, .allocate]).pool = true ↔
      (run ⟨⟨1, 4096, [0, 1], 2, 2, 0⟩, []⟩
        [.deallocate 4096, .allocate, .allocate, .allocate]).pool.nextFreeIndex
      = (run ⟨⟨1, 4096, [0, 1], 2, 2, 0⟩, []⟩
        [.deallocate 4096, .allocate, .allocate, .allocate]).pool.poolSize) :=
  ⟨by decide, by decide,
    (C15_query_consistency 1 4096 2 ⟨1, 4096, [0, 1], 2, 2, 0⟩
      [.deallocate 4096, .allocate, .allocate, .allocate] (by decide) (by decide)).2.2.1⟩

/-- C16: for every pool state and every non-null pointer whose computed offset `idx` is
below `poolSize`, `deallocate` returns normally whatever the free region holds: it
decrements `nextFreeIndex` (modulo `2 ^ 64`) and stores `idx` there. On a usable pool with
`nextFreeIndex == 0` and capacity below `SIZE_MAX` the decrement wraps to `2 ^ 64 - 1` and
`getAvailableSlots()` exceeds `getPoolSize()`. And a reachable state exists (`pool(2)`,
one-byte elements, after `allocate`, `allocate`, `deallocate(4096)`) in which the slot of
4096 is already in the free region, `deallocate(4096)` succeeds again, and the free region
is `[0, 0]` afterwards. -/
theorem C16_double_release_not_detected (s : MemoryPool) (ptr : Nat) (hnull : ptr ≠ 0)
    (hidx : s.ptrOffset ptr < s.poolSize) :
    (∃ s1, deallocate s ptr = .ok s1 ∧
      s1.nextFreeIndex = (s.nextFreeIndex + sizeMod - 1) % sizeMod ∧
      s1.freeOffsets = s.freeOffsets.set s1.nextFreeIndex (s.ptrOffset ptr) ∧
      s1.availableSlots = (s.availableSlots + 1) % sizeMod ∧
      (s.Valid → s.poolSize + 1 < sizeMod → s.nextFreeIndex = 0 →
        s1.nextFreeIndex = sizeMod - 1 ∧ getPoolSize s1 < getAvailableSlots s1)) ∧
    (∃ s0 s2 : MemoryPool, construct 1 4096 2 = .ok s0 ∧
      4096 ∉ (run ⟨s0, []⟩ [.allocate, .allocate, .deallocate 4096]).outstanding ∧
      (run ⟨s0, []⟩ [.allocate, .allocate, .deallocate 4096]).pool.ptrOffset 4096 ∈
        (run ⟨s0, []⟩ [.allocate, .allocate, .deallocate 4096]).pool.freeRegion ∧
      deallocate (run ⟨s0, []⟩ [.allocate, .allocate, .deallocate 4096]).pool 4096 = .ok s2 ∧
      s2.freeRegion = [0, 0] ∧ ¬ s2.freeRegion.Nodup) := by
  refine ⟨?_, ⟨1, 4096, [0, 1], 2, 2, 0⟩, ⟨1, 4096, [0, 0], 2, 2, 0⟩, by decide⟩
  rcases deallocate_cases s ptr with ⟨h0, _⟩ | ⟨_, hge, _⟩ | ⟨_, _, s1, h, _, _, h3, h4, h5, h6⟩
  · exact absurd h0 hnull
  · omega
  · refine ⟨s1, h, h4, by rw [h4]; exact h6, h5, ?_⟩
    intro hv hcap htop
    have hsum := hv.2.2.2.2
    simp only [getPoolSize, getAvailableSlots]
    rw [h3, h4, h5, htop]
    unfold sizeMod at *
    omega

/-- Witness for C16: `pool(2)` with one-byte elements at 4096 in the state after
`allocate`, `allocate`, `deallocate(4096)`; the handle 4096 is released a second time. -/
theorem C16_double_release_not_detected_witness :
    ptrOffset ⟨1, 4096, [0, 0], 2, 1, 1⟩ 4096 ∈ freeRegion ⟨1, 4096, [0, 0], 2, 1, 1⟩ ∧
    ∃ s1, deallocate ⟨1, 4096, [0, 0], 2, 1, 1⟩ 4096 = .ok s1 ∧
      s1.nextFreeIndex = (1 + sizeMod - 1) % sizeMod ∧
      s1.freeOffsets = [0, 0].set s1.nextFreeIndex (ptrOffset ⟨1, 4096, [0, 0], 2, 1, 1⟩ 4096) ∧
      s1.availableSlots = (1 + 1) % sizeMod :=
  have h := (C16_double_release_not_detected ⟨1, 4096, [0, 0], 2, 1, 1⟩ 4096
    (by decide) (by decide)).1
  ⟨by decide, h.elim fun s1 hs => ⟨s1, hs.1, hs.2.1, hs.2.2.1, hs.2.2.2.1⟩⟩

/-! ## C17, C18: bounds of the stack index, failing calls -/

theorem run_cons (c : Client) (op : Op) (ops : List Op) :
    c.run (op :: ops) = (c.step op).run ops := rfl

/-- In a well-formed sequence the pointer of every `deallocate` is outstanding in the state
in which the call is made. -/
theorem wellFormed_getElem (ops : List Op) : ∀ (c : Client) (k : Nat) (ptr : Nat),
    c.wellFormed ops = true → ops[k]? = some (.deallocate ptr) →
    ptr ∈ (c.run (ops.take k)).outstanding := by
  induction ops with
  | nil => intro c k ptr _ h; simp at h
  | cons op ops ih =>
    intro c k ptr hw h
    cases k with
    | zero =>
      simp only [List.getElem?_cons_zero, Option.some.injEq] at h
      subst h
      simp only [wellFormed, Bool.and_eq_true, decide_eq_true_eq] at hw
      exact hw.1
    | succ k =>
      simp only [List.getElem?_cons_succ] at h
      rw [List.take_succ_cons, run_cons]
      cases op with
      | allocate =>
        simp only [wellFormed] at hw
        exact ih _ k ptr hw h
      | deallocate q =>
        simp only [wellFormed, Bool.and_eq_true, decide_eq_true_eq] at hw
        exact ih _ k ptr hw.2 h

/-- C17: on a pool constructed with capacity `n > 0`, at every point `k` of every well-formed
sequence of calls, `nextFreeIndex <= poolSize` and `availableSlots <= poolSize` with
`availableSlots + nextFreeIndex = poolSize` as natural numbers (no wrap-around), and the
entry of `freeOffsets` that the next call of the sequence reads or writes, if it touches
one, is at an index below `poolSize`, the length of the array. -/
theorem C17_stack_index_in_bounds (objectSize base n : Nat) (s0 : MemoryPool)
    (ops : List Op) (k : Nat) (hf : Fits objectSize base n) (hn : 0 < n)
    (hc : construct objectSize base n = .ok s0)
    (hw : wellFormed ⟨s0, []⟩ ops = true) :
    (run ⟨s0, []⟩ (ops.take k)).pool.nextFreeIndex ≤ (run ⟨s0, []⟩ (ops.take k)).pool.poolSize ∧
    (run ⟨s0, []⟩ (ops.take k)).pool.availableSlots ≤ (run ⟨s0, []⟩ (ops.take k)).pool.poolSize ∧
    (run ⟨s0, []⟩ (ops.take k)).pool.availableSlots
        + (run ⟨s0, []⟩ (ops.take k)).pool.nextFreeIndex
      = (run ⟨s0, []⟩ (ops.take k)).pool.poolSize ∧
    (run ⟨s0, []⟩ (ops.take k)).pool.freeOffsets.length
      = (run ⟨s0, []⟩ (ops.take k)).pool.poolSize ∧
    (run ⟨s0, []⟩ (ops.take k)).pool.poolSize = n ∧
    ∀ op i, ops[k]? = some op → (run ⟨s0, []⟩ (ops.take k)).accessIndex op = some i →
      i < (run ⟨s0, []⟩ (ops.take k)).pool.poolSize := by
  obtain ⟨hv, hlen, _⟩ := inv_run (inv_fresh hf hn hc) (wellFormed_take k hw)
  have hlt := valid_poolSize_lt hv
  have hsum := hv.2.2.2.2
  have hp : (run ⟨s0, []⟩ (ops.take k)).pool.poolSize = n := by
    rw [(run_frame (ops.take k) ⟨s0, []⟩).2.2]
    have hc2 := hc
    rw [construct_eq objectSize base n (by omega)] at hc2
    injection hc2 with hc2
    subst hc2; rfl
  refine ⟨by omega, by omega, hsum, hv.2.2.1, hp, ?_⟩
  intro op i hop hi
  cases op with
  | allocate =>
    simp only [accessIndex] at hi
    split at hi
    · cases hi
    · next ha =>
      injection hi with hi
      omega
  | deallocate ptr =>
    have hmem := wellFormed_getElem ops ⟨s0, []⟩ k ptr hw hop
    have hpos : 0 < (run ⟨s0, []⟩ (ops.take k)).outstanding.length :=
      List.length_pos_of_mem hmem
    simp only [accessIndex] at hi
    split at hi
    · cases hi
    · split at hi
      · cases hi
      · injection hi with hi
        unfold sizeMod at *
        omega

/-- Witness for C17: `pool(3)` with 16-byte elements, the sequence allocate, allocate,
release, allocate, allocate, observed before its third call. -/
theorem C17_stack_index_in_bounds_witness :
    Fits 16 4096 3 ∧ construct 16 4096 3 = .ok ⟨16, 4096, [0, 1, 2], 3, 3, 0⟩ ∧
    wellFormed ⟨⟨16, 4096, [0, 1, 2], 3, 3, 0⟩, []⟩
      [.allocate, .allocate, .deallocate 4096, .allocate, .allocate] = true ∧
    (run ⟨⟨16, 4096, [0, 1, 2], 3, 3, 0⟩, []⟩ (List.take 2
      [.allocate, .allocate, .deallocate 4096, .allocate, .allocate])).accessIndex
        (.deallocate 4096) = some 1 ∧
    (run ⟨⟨16, 4096, [0, 1, 2], 3, 3, 0⟩, []⟩ (List.take 2
      [.allocate, .allocate, .deallocate 4096, .allocate, .allocate])).pool.nextFreeIndex
      ≤ (run ⟨⟨16, 4096, [0, 1, 2], 3, 3, 0⟩, []⟩ (List.take 2
      [.allocate, .allocate, .deallocate 4096, .allocate, .allocate])).pool.poolSize :=
  ⟨by decide, by decide, by decide, by decide,
    (C17_stack_index_in_bounds 16 4096 3 ⟨16, 4096, [0, 1, 2], 3, 3, 0⟩
      [.allocate, .allocate, .deallocate 4096, .allocate, .allocate] 2
      (by decide) (by decide) (by decide) (by decide)).1⟩

/-- The statement-by-statement form of `deallocate` agrees with `deallocate`. -/
theorem deallocate_eq_deallocateState (s : MemoryPool) (ptr : Nat) :
    s.deallocate ptr =
      match s.deallocateState ptr with
      | (s1, none) => .ok s1
      | (_, some e) => .error e := by
  unfold deallocate deallocateState
  by_cases hp : ptr = 0
  · simp only [if_pos hp]
  · by_cases ho : s.ptrOffset ptr ≥ s.poolSize
    · simp only [if_neg hp, if_pos ho]
    · simp only [if_neg hp, if_neg ho]

/-- C18: an `allocate()` that returns `nullptr` leaves every data member as it was (on an
exhausted pool in any state, and in every usable pool state whenever the result is
`nullptr`), and a `deallocate` that throws `std::invalid_argument` leaves every data member
as it was at the moment of the throw. -/
theorem C18_failing_calls_change_nothing (s : MemoryPool) (ptr : Nat) :
    (isFull s = true → allocate s = (0, s)) ∧
    (s.Valid → (allocate s).1 = 0 → (allocate s).2 = s) ∧
    (deallocate s ptr = .error .invalid_argument ↔
      (deallocateState s ptr).2 = some .invalid_argument) ∧
    ((deallocateState s ptr).2 = some .invalid_argument → (deallocateState s ptr).1 = s) := by
  refine ⟨?_, ?_, ?_, ?_⟩
  · intro hfull
    have ha : s.availableSlots = 0 := by simpa [isFull] using hfull
    unfold allocate
    rw [if_pos ha]
  · intro hv h0
    rcases allocate_cases s with ⟨_, h⟩ | ⟨ha, _⟩
    · rw [h]
    · exfalso
      rw [allocate_of_valid hv ha] at h0
      have := hv.1.2.1
      simp only at h0
      omega
  · rw [deallocate_eq_deallocateState]
    unfold deallocateState
    by_cases hp : ptr = 0
    · simp only [if_pos hp]
      constructor <;> intro h <;> cases h
    · by_cases ho : s.ptrOffset ptr ≥ s.poolSize
      · simp only [if_neg hp, if_pos ho]
      · simp only [if_neg hp, if_neg ho]
        constructor <;> intro h <;> cases h
  · unfold deallocateState
    by_cases hp : ptr = 0
    · simp only [if_pos hp, implies_true]
    · by_cases ho : s.ptrOffset ptr ≥ s.poolSize
      · simp only [if_neg hp, if_pos ho, implies_true]
      · simp only [if_neg hp, if_neg ho]
        intro h; cases h

/-- Witness for C18: the full `pool(2)` with 16-byte elements, and the foreign address 4000. -/
theorem C18_failing_calls_change_nothing_witness :
    isFull ⟨16, 4096, [0, 1], 2, 0, 2⟩ = true ∧
    allocate ⟨16, 4096, [0, 1], 2, 0, 2⟩ = (0, ⟨16, 4096, [0, 1], 2, 0, 2⟩) ∧
    deallocate ⟨16, 4096, [0, 1], 2, 0, 2⟩ 4000 = .error .invalid_argument ∧
    (deallocateState ⟨16, 4096, [0, 1], 2, 0, 2⟩ 4000).1 = ⟨16, 4096, [0, 1], 2, 0, 2⟩ :=
  have h := C18_failing_calls_change_nothing ⟨16, 4096, [0, 1], 2, 0, 2⟩ 4000
  ⟨by decide, h.1 (by decide), by decide, h.2.2.2 (by decide)⟩

/-! ## C19: handles stay inside the buffer -/

/-- The pool returned by the constructor has the element size, buffer address and capacity
it was given, and these stay fixed along every sequence of calls. -/
theorem run_fresh_frame {objectSize base n : Nat} {s0 : MemoryPool} (hn : 0 < n)
    (hc : construct objectSize base n = .ok s0) (ops : List Op) :
    (run ⟨s0, []⟩ ops).pool.objectSize = objectSize ∧
    (run ⟨s0, []⟩ ops).pool.memoryPool = base ∧
    (run ⟨s0, []⟩ ops).pool.poolSize = n := by
  obtain ⟨h1, h2, h3⟩ := run_frame ops ⟨s0, []⟩
  rw [construct_eq objectSize base n (by omega)] at hc
  injection hc with hc
  subst hc
  exact ⟨h1, h2, h3⟩

theorem slot_range_inside {n o i : Nat} (hn : i < n) (ho : 1 ≤ o) : i + o ≤ n * o := by
  obtain ⟨a, rfl⟩ := Nat.exists_eq_add_of_le ho
  obtain ⟨b, rfl⟩ := Nat.exists_eq_add_of_lt hn
  nlinarith [Nat.zero_le (i * a), Nat.zero_le (b * a), Nat.zero_le a]

/-- C19: for every element size of at least one byte, at every point `k` of every
well-formed sequence of calls on a constructed pool, every entry of `freeOffsets` is below
the capacity; every outstanding handle `h` denotes a byte range `[h, h + objectSize)` inside
the buffer `[base, base + n * objectSize)` and `deallocate(h)` does not throw; and a
non-null pointer returned by `allocate()` in that state denotes a range inside the buffer
as well. -/
theorem C19_handles_inside_buffer (objectSize base n : Nat) (s0 : MemoryPool)
    (ops : List Op) (k : Nat) (hf : Fits objectSize base n) (hn : 0 < n)
    (hc : construct objectSize base n = .ok s0)
    (hw : wellFormed ⟨s0, []⟩ ops = true) :
    (∀ x ∈ (run ⟨s0, []⟩ (ops.take k)).pool.freeOffsets, x < n) ∧
    (∀ h ∈ (run ⟨s0, []⟩ (ops.take k)).outstanding,
      base ≤ h ∧ h + objectSize ≤ base + n * objectSize ∧
      ∃ s1, deallocate (run ⟨s0, []⟩ (ops.take k)).pool h = .ok s1) ∧
    ((allocate (run ⟨s0, []⟩ (ops.take k)).pool).1 ≠ 0 →
      base ≤ (allocate (run ⟨s0, []⟩ (ops.take k)).pool).1 ∧
      (allocate (run ⟨s0, []⟩ (ops.take k)).pool).1 + objectSize ≤ base + n * objectSize) := by
  obtain ⟨hv, hlen, hmem⟩ := inv_run (inv_fresh hf hn hc) (wellFormed_take k hw)
  obtain ⟨e1, e2, e3⟩ := run_fresh_frame hn hc (ops.take k)
  have hobj := hf.1
  refine ⟨?_, ?_, ?_⟩
  · intro x hx
    have := hv.2.2.2.1 x hx
    omega
  · intro h hh
    obtain ⟨h1, h2⟩ := hmem h hh
    have ht : 0 < (run ⟨s0, []⟩ (ops.take k)).pool.nextFreeIndex := by
      rw [← hlen]; exact List.length_pos_of_mem hh
    have hin : h - base + objectSize ≤ n * objectSize :=
      slot_range_inside (by omega) hobj
    exact ⟨by omega, by omega, _, deallocate_of_valid hv h1 h2 ht⟩
  · intro hne
    rcases allocate_cases (run ⟨s0, []⟩ (ops.take k)).pool with ⟨_, h⟩ | ⟨ha, _⟩
    · rw [h] at hne
      exact absurd rfl hne
    · rw [allocate_of_valid hv ha]
      have hsum := hv.2.2.2.2
      have hidx := valid_getD_lt hv (run ⟨s0, []⟩ (ops.take k)).pool.nextFreeIndex (by omega)
      have hin : (run ⟨s0, []⟩ (ops.take k)).pool.freeOffsets.getD
          (run ⟨s0, []⟩ (ops.take k)).pool.nextFreeIndex 0 + objectSize ≤ n * objectSize :=
        slot_range_inside (by omega) hobj
      simp only
      omega

/-- Witness for C19: `pool(3)` with 16-byte elements at 4096 after `allocate`, `allocate`,
`deallocate(4096)`: the handle 4097 is outstanding and its range ends at 4113, inside the
48-byte buffer. -/
theorem C19_handles_inside_buffer_witness :
    Fits 16 4096 3 ∧ construct 16 4096 3 = .ok ⟨16, 4096, [0, 1, 2], 3, 3, 0⟩ ∧
    (run ⟨⟨16, 4096, [0, 1, 2], 3, 3, 0⟩, []⟩
      (List.take 3 [.allocate, .allocate, .deallocate 4096, .allocate])).outstanding = [4097] ∧
    ∀ h ∈ (run ⟨⟨16, 4096, [0, 1, 2], 3, 3, 0⟩, []⟩
        (List.take 3 [.allocate, .allocate, .deallocate 4096, .allocate])).outstanding,
      4096 ≤ h ∧ h + 16 ≤ 4096 + 3 * 16 ∧
      ∃ s1, deallocate (run ⟨⟨16, 4096, [0, 1, 2], 3, 3, 0⟩, []⟩
        (List.take 3 [.allocate, .allocate, .deallocate 4096, .allocate])).pool h = .ok s1 :=
  ⟨by decide, by decide, by decide,
    (C19_handles_inside_buffer 16 4096 3 ⟨16, 4096, [0, 1, 2], 3, 3, 0⟩
      [.allocate, .allocate, .deallocate 4096, .allocate] 3
      (by decide) (by decide) (by decide) (by decide)).2.1⟩

/-! ## C20: the free-offset stack for one-byte elements -/

theorem drop_set_self (l : List Nat) (i x : Nat) (h : i < l.length) :
    (l.set i x).drop i = x :: l.drop (i + 1) := by
  have h2 : i < (l.set i x).length := by simpa using h
  rw [List.drop_eq_getElem_cons h2, set_drop_succ, List.getElem_set_self]

/-- Taking a slot moves the offset at `nextFreeIndex` from the free region to the handles. -/
theorem perm_step_allocate {c : Client} (hc : c.Inv)
    (hP : (c.pool.freeRegion ++ c.outstanding.map (fun h => h - c.pool.memoryPool)).Perm
      (List.range c.pool.poolSize)) :
    ((c.step .allocate).pool.freeRegion ++
        (c.step .allocate).outstanding.map (fun h => h - (c.step .allocate).pool.memoryPool)).Perm
      (List.range (c.step .allocate).pool.poolSize) := by
  obtain ⟨hv, hlen, hmem⟩ := hc
  by_cases ha : c.pool.availableSlots = 0
  · have h0 : c.pool.allocate = (0, c.pool) := by unfold allocate; rw [if_pos ha]
    rw [step_allocate_eq h0]
    simpa using hP
  · have hsum := hv.2.2.2.2
    have hbase := hv.1.2.1
    have htop : c.pool.nextFreeIndex < c.pool.freeOffsets.length := by
      rw [hv.2.2.1]; omega
    rw [step_allocate_eq (allocate_of_valid hv ha), if_neg (by omega)]
    simp only [freeRegion, List.map_cons, Nat.add_sub_cancel_left]
    rw [freeRegion, List.drop_eq_getElem_cons htop] at hP
    rw [List.getD_eq_getElem _ _ htop]
    exact (List.perm_middle).trans hP

/-- For one-byte elements, releasing an outstanding handle moves its offset from the
handles back to the free region. -/
theorem perm_step_deallocate {c : Client} (hc : c.Inv) (hone : c.pool.objectSize = 1)
    {ptr : Nat} (hp : ptr ∈ c.outstanding)
    (hP : (c.pool.freeRegion ++ c.outstanding.map (fun h => h - c.pool.memoryPool)).Perm
      (List.range c.pool.poolSize)) :
    ((c.step (.deallocate ptr)).pool.freeRegion ++
        (c.step (.deallocate ptr)).outstanding.map
          (fun h => h - (c.step (.deallocate ptr)).pool.memoryPool)).Perm
      (List.range (c.step (.deallocate ptr)).pool.poolSize) := by
  obtain ⟨hv, hlen, hmem⟩ := hc
  obtain ⟨h1, h2⟩ := hmem ptr hp
  have ht : 0 < c.pool.nextFreeIndex := by
    rw [← hlen]; exact List.length_pos_of_mem hp
  have hsum := hv.2.2.2.2
  have hlt : c.pool.nextFreeIndex - 1 < c.pool.freeOffsets.length := by
    rw [hv.2.2.1]; omega
  have hsucc : c.pool.nextFreeIndex - 1 + 1 = c.pool.nextFreeIndex := by omega
  rw [step_deallocate_ok (deallocate_of_valid hv h1 h2 ht)]
  simp only [freeRegion, hone, Nat.div_one]
  rw [drop_set_self _ _ _ hlt, hsucc]
  rw [freeRegion] at hP
  have hperm : (c.outstanding.map (fun h => h - c.pool.memoryPool)).Perm
      ((ptr - c.pool.memoryPool) :: (c.outstanding.erase ptr).map
        (fun h => h - c.pool.memoryPool)) :=
    (List.perm_cons_erase hp).map _
  refine List.Perm.trans ?_ hP
  rw [List.cons_append]
  exact (List.perm_middle.symm).trans (List.Perm.append_left _ hperm.symm)

theorem perm_run {ops : List Op} : ∀ {c : Client}, c.Inv → c.pool.objectSize = 1 →
    c.wellFormed ops = true →
    (c.pool.freeRegion ++ c.outstanding.map (fun h => h - c.pool.memoryPool)).Perm
      (List.range c.pool.poolSize) →
    ((c.run ops).pool.freeRegion ++
        (c.run ops).outstanding.map (fun h => h - (c.run ops).pool.memoryPool)).Perm
      (List.range (c.run ops).pool.poolSize) := by
  induction ops with
  | nil => intro c _ _ _ hP; exact hP
  | cons op ops ih =>
    intro c hc hone hw hP
    rw [run_cons]
    have hone2 : (c.step op).pool.objectSize = 1 := by
      rw [(step_frame c op).1]; exact hone
    cases op with
    | allocate =>
      simp only [wellFormed] at hw
      exact ih (inv_step_allocate hc) hone2 hw (perm_step_allocate hc hP)
    | deallocate ptr =>
      simp only [wellFormed, Bool.and_eq_true, decide_eq_true_eq] at hw
      exact ih (inv_step_deallocate hc hw.1) hone2 hw.2 (perm_step_deallocate hc hone hw.1 hP)

/-- C20: for one-byte elements, at every point `k` of every well-formed sequence of calls on
a constructed pool, the free region together with the slots of the outstanding handles is a
rearrangement of `0, …, n - 1`: the free region has no repeated entry, all its entries are
below `n`, no two outstanding handles are equal, and a slot index `i < n` occurs exactly
once in the free region if the handle `base + i` is not outstanding and not at all if it
is. -/
theorem C20_free_stack_correct_for_bytes (base n : Nat) (s0 : MemoryPool)
    (ops : List Op) (k : Nat) (hf : Fits 1 base n) (hn : 0 < n)
    (hc : construct 1 base n = .ok s0)
    (hw : wellFormed ⟨s0, []⟩ ops = true) :
    (run ⟨s0, []⟩ (ops.take k)).pool.freeRegion.Nodup ∧
    (∀ x ∈ (run ⟨s0, []⟩ (ops.take k)).pool.freeRegion, x < n) ∧
    (run ⟨s0, []⟩ (ops.take k)).outstanding.Nodup ∧
    (run ⟨s0, []⟩ (ops.take k)).pool.freeRegion.length
        + (run ⟨s0, []⟩ (ops.take k)).outstanding.length = n ∧
    ∀ i, i < n →
      (base + i ∉ (run ⟨s0, []⟩ (ops.take k)).outstanding →
        (run ⟨s0, []⟩ (ops.take k)).pool.freeRegion.count i = 1) ∧
      (base + i ∈ (run ⟨s0, []⟩ (ops.take k)).outstanding →
        (run ⟨s0, []⟩ (ops.take k)).pool.freeRegion.count i = 0) := by
  have hinv0 := inv_fresh hf hn hc
  have hwk := wellFormed_take k hw
  obtain ⟨e1, e2, e3⟩ := run_fresh_frame hn hc (ops.take k)
  have hs0 := hc
  rw [construct_eq 1 base n (by omega)] at hs0
  injection hs0 with hs0
  have hP0 : ((Client.mk s0 []).pool.freeRegion ++
      (Client.mk s0 []).outstanding.map (fun h => h - (Client.mk s0 []).pool.memoryPool)).Perm
      (List.range (Client.mk s0 []).pool.poolSize) := by
    subst hs0
    simp [freeRegion]
  have hone0 : (Client.mk s0 []).pool.objectSize = 1 := by subst hs0; rfl
  have hP := perm_run hinv0 hone0 hwk hP0
  obtain ⟨hv, hlen, hmem⟩ := inv_run hinv0 hwk
  rw [e2, e3] at hP
  rw [e2, e3] at hmem
  have hnd : ((run ⟨s0, []⟩ (ops.take k)).pool.freeRegion ++
      (run ⟨s0, []⟩ (ops.take k)).outstanding.map (fun h => h - base)).Nodup :=
    hP.nodup_iff.mpr (List.nodup_range n)
  obtain ⟨hnd1, hnd2, hdisj⟩ := List.nodup_append.mp hnd
  refine ⟨hnd1, ?_, hnd2.of_map, ?_, ?_⟩
  · intro x hx
    have : x ∈ List.range n := hP.mem_iff.mp (List.mem_append_left _ hx)
    simpa using this
  · have := hP.length_eq
    simpa using this
  · intro i hi
    have hmemi : i ∈ (run ⟨s0, []⟩ (ops.take k)).pool.freeRegion ++
        (run ⟨s0, []⟩ (ops.take k)).outstanding.map (fun h => h - base) :=
      hP.mem_iff.mpr (by simpa using hi)
    constructor
    · intro hout
      rcases List.mem_append.mp hmemi with h | h
      · exact List.count_eq_one_of_mem hnd1 h
      · exfalso
        obtain ⟨h', hh', hsub⟩ := List.mem_map.mp h
        have := (hmem h' hh').1
        have heq : h' = base + i := by omega
        exact hout (heq ▸ hh')
    · intro hin
      apply List.count_eq_zero_of_not_mem
      intro hreg
      have : i ∈ (run ⟨s0, []⟩ (ops.take k)).outstanding.map (fun h => h - base) :=
        List.mem_map.mpr ⟨base + i, hin, by simp⟩
      exact hdisj hreg this

/-- Witness for C20: `pool(3)` with one-byte elements at 4096 after `allocate`, `allocate`,
`deallocate(4096)`: the free region is `[0, 2]` and the handle 4097 is outstanding. -/
theorem C20_free_stack_correct_for_bytes_witness :
    Fits 1 4096 3 ∧ construct 1 4096 3 = .ok ⟨1, 4096, [0, 1, 2], 3, 3, 0⟩ ∧
    (run ⟨⟨1, 4096, [0, 1, 2], 3, 3, 0⟩, []⟩
      (List.take 3 [.allocate, .allocate, .deallocate 4096, .allocate])).pool.freeRegion
      = [0, 2] ∧
    (run ⟨⟨1, 4096, [0, 1, 2], 3, 3, 0⟩, []⟩
      (List.take 3 [.allocate, .allocate, .deallocate 4096, .allocate])).outstanding = [4097] ∧
    (run ⟨⟨1, 4096, [0, 1, 2], 3, 3, 0⟩, []⟩
      (List.take 3 [.allocate, .allocate, .deallocate 4096, .allocate])).pool.freeRegion.Nodup :=
  ⟨by decide, by decide, by decide, by decide,
    (C20_free_stack_correct_for_bytes 4096 3 ⟨1, 4096, [0, 1, 2], 3, 3, 0⟩
      [.allocate, .allocate, .deallocate 4096, .allocate] 3
      (by decide) (by decide) (by decide) (by decide)).1⟩

end FixedMemoryPool
